import Mathlib

/-!
Verification of the tuning core of the `tune` repository.

The repository sources available under src/ are the CLI binary
(src/src-bin/main.rs), the pitch module of the library (src/src/pitch.rs),
the CLI integration tests and an unrelated GUI front end.  The remaining
library modules (tune::scale, tune::key_map, tune::tuning, tune::ratio,
tune::mts, tune::note, tune::parse) are not part of the sources, so the
definitions below that come from those modules are modelled from the
specification text and are marked `Modelled from the spec:` in their doc
comments.  Functions taken from src/ are embedded directly from the Rust
code and name their source location.

Machine numerics: `f64` values are modelled as exact rational numbers
wherever the embedded code only multiplies, divides and compares them;
`i32`/`u16` are modelled as `Int`/`Nat` with explicit range checks where the
code performs them.
-/

set_option maxHeartbeats 1000000

set_option allowUnsafeReducibility true

attribute [semireducible] Rat.mul Rat.add Rat.div Rat.sub Rat.inv Rat.neg

namespace Tune

/-- Pitch from src/src/pitch.rs: a wrapper holding a frequency in Hz.
The f64 field is modelled as an exact rational number. -/
structure Pitch where
  hz : ℚ
  deriving DecidableEq

/-- Pitch::from_hz from src/src/pitch.rs: stores the given value with no
validation. -/
def Pitch.fromHz (hz : ℚ) : Pitch := ⟨hz⟩

/-- Pitch::as_hz from src/src/pitch.rs. -/
def Pitch.asHz (p : Pitch) : ℚ := p.hz

/-- Mul<Ratio> for Pitch from src/src/pitch.rs: raise a pitch by a ratio
(the ratio enters as its f64 float value, modelled as a rational). -/
def Pitch.mulRatio (p : Pitch) (r : ℚ) : Pitch := Pitch.fromHz (p.asHz * r)

/-- Div<Ratio> for Pitch from src/src/pitch.rs: lower a pitch by a ratio. -/
def Pitch.divRatio (p : Pitch) (r : ℚ) : Pitch := Pitch.fromHz (p.asHz / r)

/-- ReferencePitch from src/src/pitch.rs: a piano key (modelled as its MIDI
number) paired with a pitch. -/
structure ReferencePitch where
  key : ℤ
  pitch : Pitch
  deriving DecidableEq

/-- Modelled from the spec: a `Scale` is a name together with the ordered
list of interval ratios measured from the root, whose last entry is the
repeating period (tune::scale::Scale is not under src/).  Float ratios are
modelled as exact rationals. -/
structure Scale where
  name : String
  ratios : List ℚ
  deriving DecidableEq

/-- Modelled from the spec: a `KeyMap` binds a reference pitch to a key and
designates the root key, both fixed at construction
(tune::key_map::KeyMap is not under src/). -/
structure KeyMap where
  refPitch : ReferencePitch
  rootKey : ℤ
  deriving DecidableEq

/-- The period of a scale: its last ratio entry (scales are non-empty; the
default covers the degenerate empty case only). -/
def Scale.period (s : Scale) : ℚ := s.ratios.getLastD 1

/-- Interval ratio of a scale degree, degree 0 being the unison: degree 0
maps to 1 and degree `deg > 0` maps to the scale's `deg - 1`-th stored
entry, so that degree `L` (one period up) maps to the period itself. -/
def Scale.degreeRatio (s : Scale) (deg : ℕ) : ℚ := (1 :: s.ratios).getD deg 1

/-- Modelled from the spec: `pitch_of(key)` of the Scale+KeyMap tuning:
degree = (key - root_key) mod L, octave = (key - root_key) div L with L the
scale length including the period entry, and the result is
ref_pitch.pitch * period^octave * scale[degree] (degree 0 = unison).
Division and modulus are the flooring ones so that the mapping is total
over all integer keys, with negative octaves below the root
(the Tuning implementation for Scale+KeyMap is not under src/). -/
def pitchOf (s : Scale) (km : KeyMap) (key : ℤ) : ℚ :=
  km.refPitch.pitch.hz * s.period ^ ((key - km.rootKey) / (s.ratios.length : ℤ)) *
    s.degreeRatio ((key - km.rootKey) % (s.ratios.length : ℤ)).toNat

/-- Strict ascending chain check: every element is greater than its
predecessor, starting from the given lower bound. -/
def chainLT : ℚ → List ℚ → Bool
  | _, [] => true
  | prev, x :: rest => decide (prev < x) && chainLT x rest

/-- Validity of a scale per the spec's invariants: non-empty and the ratio
sequence strictly increasing above the unison (hence the period, its last
entry, exceeds 1). -/
def ValidScale (s : Scale) : Prop := s.ratios ≠ [] ∧ chainLT 1 s.ratios = true

/-- Count how many leading entries of the list are at most `y`. -/
def scanDeg (y : ℚ) : List ℚ → ℕ
  | [] => 0
  | t :: rest => if t ≤ y then scanDeg y rest + 1 else 0

/-- Fuel-driven search: largest exponent `z ≥ 0` with `b^z ≤ x`, for
`x ≥ 1 < b`; structural recursion so that it evaluates in the kernel. -/
def glogUp : ℕ → ℚ → ℚ → ℤ
  | 0, _, _ => 0
  | fuel + 1, b, x => if x < b then 0 else glogUp fuel b (x / b) + 1

/-- Fuel-driven search: the (negative) exponent `z` with `b^z ≤ x < b^(z+1)`
for `0 < x < 1 < b`. -/
def glogDown : ℕ → ℚ → ℚ → ℤ
  | 0, _, _ => 0
  | fuel + 1, b, x => if 1 ≤ x then 0 else glogDown fuel b (x * b) - 1

/-- Sufficient fuel for `glogUp`: see `glogUp_fuel` below. -/
def glogFuelUp (b x : ℚ) : ℕ := b.den * x.num.natAbs + 1

/-- Sufficient fuel for `glogDown`: see `glogDown_fuel` below. -/
def glogFuelDown (b x : ℚ) : ℕ := b.den * x.den + 1

/-- Floor logarithm in base `b`: the unique `z` with `b^z ≤ x < b^(z+1)`
(meaningful for `1 < b` and `0 < x`). -/
def glog (b x : ℚ) : ℤ :=
  if 1 ≤ x then glogUp (glogFuelUp b x) b x else glogDown (glogFuelDown b x) b x

/-- Modelled from the spec: `find_by_pitch(p)` of the Scale+KeyMap tuning:
locate the two adjacent keys whose pitches bracket `p` (the generated pitch
sequence is monotonic for a valid scale) and return the numerically closer
one together with the deviation ratio; on an exact tie the lower key is
preferred.  Closeness is measured by the deviation ratio, so the comparison
`p / pitch_lower ≤ pitch_upper / p` is evaluated as
`p * p ≤ pitch_lower * pitch_upper`
(the Tuning implementation for Scale+KeyMap is not under src/). -/
def findByPitch (s : Scale) (km : KeyMap) (p : ℚ) : ℤ × ℚ :=
  let b := s.period
  let x := p / km.refPitch.pitch.hz
  let oct := glog b x
  let y := x / b ^ oct
  let d := scanDeg y s.ratios.dropLast
  let lower := km.rootKey + oct * s.ratios.length + d
  let pL := pitchOf s km lower
  let pU := pitchOf s km (lower + 1)
  if p * p ≤ pL * pU then (lower, p / pL) else (lower + 1, p / pU)

/-- Modelled from the spec: result record of Ratio::nearest_fraction
(tune::ratio is not under src/): numerator, denominator, number of octaves
factored out, and the residual deviation ratio. -/
structure NearestFraction where
  numer : ℕ
  denom : ℕ
  numOctaves : ℤ
  deviation : ℚ
  deriving DecidableEq

/-- Modelled from the spec: repeatedly halve a rational at least 1 until it
drops below 2, counting the halvings; fuel-driven structural recursion. -/
def halveToOctave : ℕ → ℚ → ℤ × ℚ
  | 0, q => (0, q)
  | fuel + 1, q =>
    if q < 2 then (0, q)
    else
      let zr := halveToOctave fuel (q / 2)
      (zr.1 + 1, zr.2)

/-- Modelled from the spec: repeatedly double a rational below 1 until it
reaches 1, counting the doublings negatively. -/
def doubleToOctave : ℕ → ℚ → ℤ × ℚ
  | 0, q => (0, q)
  | fuel + 1, q =>
    if 1 ≤ q then (0, q)
    else
      let zr := doubleToOctave fuel (q * 2)
      (zr.1 - 1, zr.2)

/-- Modelled from the spec: factor the power of two out of a positive ratio
so that the remainder lies in [1, 2); returns (num_octaves, remainder). -/
def octaveReduce (q : ℚ) : ℤ × ℚ :=
  if 1 ≤ q then halveToOctave q.num.natAbs q else doubleToOctave q.den q

/-- Modelled from the spec: the continued-fraction convergent loop of
Ratio::nearest_fraction.  `(pPrev, qPrev)` and `(pCur, qCur)` are the
previous and the currently kept convergent, `(num, den)` is the remaining
tail of the expansion (the next partial quotient is `num / den`).  The loop
keeps accepting convergents while numerator and denominator stay within the
limit and stops before the first one that would exceed it. -/
def convergentLoop : ℕ → ℕ → ℕ → ℕ → ℕ → ℕ → ℕ → ℕ → ℕ × ℕ
  | 0, _, _, pCur, qCur, _, _, _ => (pCur, qCur)
  | fuel + 1, pPrev, qPrev, pCur, qCur, num, den, limit =>
    if den = 0 then (pCur, qCur)
    else
      let a := num / den
      let pNext := a * pCur + pPrev
      let qNext := a * qCur + qPrev
      if pNext ≤ limit ∧ qNext ≤ limit then
        convergentLoop fuel pCur qCur pNext qNext den (num % den) limit
      else (pCur, qCur)

/-- Modelled from the spec: Ratio::nearest_fraction — factor out the power
of two so the remainder lies in [1, 2), then run a continued-fraction
expansion of the remainder, keeping convergents while numerator and
denominator are within the limit; the deviation is the residual ratio
between the input and the returned value (tune::ratio is not under
src/). -/
def nearestFraction (r : ℚ) (limit : ℕ) : NearestFraction :=
  let zrem := octaveReduce r
  let n := zrem.2.num.toNat
  let d := zrem.2.den
  let a0 := n / d
  let pq := convergentLoop (d + 1) 1 0 a0 1 d (n % d) limit
  { numer := pq.1, denom := pq.2, numOctaves := zrem.1,
    deviation := r / ((2 : ℚ) ^ zrem.1 * ((pq.1 : ℚ) / (pq.2 : ℚ))) }

/-- Deviation distance between a target ratio and an approximating fraction,
measured multiplicatively (the larger of the two quotient directions). -/
def ratioDist (r f : ℚ) : ℚ := max (r / f) (f / r)

/-- Modelled from the spec: the three data bytes of one Single Note Tuning
Change entry (semitone, msb, lsb); tune::mts is not under src/. -/
def entryBytes : ℕ × ℕ × ℕ → List ℕ
  | (s, m, l) => [s, m, l]

/-- Modelled from the spec: the checksummed span of a bulk dump — every byte
from the device-id field through the last data byte. -/
def payloadBytes (deviceId program : ℕ) (entries : List (ℕ × ℕ × ℕ)) : List ℕ :=
  deviceId :: 8 :: 2 :: program :: 127 :: (entries.map entryBytes).flatten

/-- XOR of all bytes of a list. -/
def xorChecksum (l : List ℕ) : ℕ := l.foldl Nat.xor 0

/-- Modelled from the spec: the Single Note Tuning Change bulk-dump byte
sequence — header F0 7F device-id 08 02 program 7F, the three-byte entries,
the checksum byte (XOR of device-id through last data byte) and the
terminator F7 (tune::mts is not under src/). -/
def singleNoteTuningDump (deviceId program : ℕ) (entries : List (ℕ × ℕ × ℕ)) : List ℕ :=
  240 :: 127 ::
    (payloadBytes deviceId program entries ++
      [xorChecksum (payloadBytes deviceId program entries), 247])

/-- ErrorKind of std::io as consumed by src/src-bin/main.rs: only BrokenPipe
is ever inspected, every other kind is collapsed into a tagged
constructor. -/
inductive ErrorKind where
  | brokenPipe
  | other (tag : ℕ)
  deriving DecidableEq

/-- An std::io error as consumed by src/src-bin/main.rs: only its kind
matters to the embedded code. -/
structure IoError where
  kind : ErrorKind
  deriving DecidableEq

/-- main from src/src-bin/main.rs lines 189-196 as a function of the result
of try_main: a BrokenPipe error is turned into Ok(()), anything else is
returned unchanged. -/
def mainOf (tryMain : Except IoError Unit) : Except IoError Unit :=
  match tryMain with
  | .error err => if err.kind = ErrorKind.brokenPipe then .ok () else .error err
  | other => other

/-- KeyMapParams from src/src-bin/main.rs: the parsed reference pitch and
the optional root-note override (an i16 on the command line, modelled as an
integer). -/
structure KeyMapParams where
  refPitch : ReferencePitch
  rootNote : Option ℤ
  deriving DecidableEq

/-- PianoKey::from_midi_number: a piano key is modelled as its MIDI number
(tune::key is not under src/; the spec fixes MIDI-compatible numbering). -/
def pianoKeyFromMidiNumber (n : ℤ) : ℤ := n

/-- create_key_map from src/src-bin/main.rs lines 465-474: the reference
pitch is stored unchanged and the root key is the overridden root note if
present, the reference pitch's key otherwise. -/
def createKeyMap (p : KeyMapParams) : KeyMap :=
  { refPitch := p.refPitch
    rootKey := ((p.rootNote.map (fun n => n)).map pianoKeyFromMidiNumber).getD p.refPitch.key }

/-- Modelled from the spec: create_harmonics_scale (tune::scale is not under
src/): the stored ratio list of the harmonic-series scale with lowest
harmonic `h` and `n` notes lists the intervals of harmonics `h+1 … h+n`
against `h`, ending at the period `(h+n)/h`; the subharmonic variant lists
the reciprocals re-sorted ascending and renormalised, ending at the same
period. -/
def createHarmonicsScale (lowestHarmonic numberOfNotes : ℕ) (subharmonics : Bool) : Scale :=
  { name := "harmonics"
    ratios :=
      if subharmonics then
        (List.range numberOfNotes).map
          (fun i => ((lowestHarmonic + numberOfNotes : ℕ) : ℚ) /
            ((lowestHarmonic + numberOfNotes - 1 - i : ℕ) : ℚ))
      else
        (List.range numberOfNotes).map
          (fun i => ((lowestHarmonic + 1 + i : ℕ) : ℚ) / (lowestHarmonic : ℚ)) }

/-- create_scale from src/src-bin/main.rs lines 442-450, restricted to the
HarmonicSeries command arm: the number of notes defaults to the lowest
harmonic when omitted. -/
def createScaleHarm (lowestHarmonic : ℕ) (numberOfNotes : Option ℕ) (subharmonics : Bool) :
    Scale :=
  createHarmonicsScale lowestHarmonic (numberOfNotes.getD lowestHarmonic) subharmonics

/-- Split a character list at every occurrence of the separator.  Modelled
from the spec: tune::parse::split_balanced is not under src/; it splits at
separators outside bracketed groups, and the spec's reference-pitch and
ratio expressions contain no brackets, while every input containing a
bracket is rejected by the number parsers either way, so plain splitting
accepts and rejects exactly the same strings. -/
def splitOnChar (sep : Char) : List Char → List (List Char)
  | [] => [[]]
  | c :: rest =>
    let ps := splitOnChar sep rest
    if c = sep then [] :: ps
    else
      match ps with
      | [] => [[c]]
      | hd :: tl => (c :: hd) :: tl

/-- Join parts back with the separator; inverse of `splitOnChar`. -/
def joinParts (sep : Char) : List (List Char) → List Char
  | [] => []
  | [a] => a
  | a :: rest => a ++ sep :: joinParts sep rest

/-- Accumulating decimal-digit reader: fails on any non-digit character. -/
def digitsToNat (acc : ℕ) : List Char → Option ℕ
  | [] => some acc
  | c :: rest => if c.isDigit then digitsToNat (10 * acc + (c.toNat - 48)) rest else none

/-- Parse a non-empty all-digit string as a natural number. -/
def parseNatStr (s : List Char) : Option ℕ :=
  match s with
  | [] => none
  | _ => digitsToNat 0 s

/-- Rust i32 FromStr as used by the embedded parsers: an optional sign
followed by at least one digit, rejected when the value is out of the i32
range. -/
def parseI32 (s : List Char) : Option ℤ :=
  match s with
  | '+' :: rest => (parseNatStr rest).bind (fun n => if n < 2 ^ 31 then some (n : ℤ) else none)
  | '-' :: rest => (parseNatStr rest).bind (fun n => if n ≤ 2 ^ 31 then some (-(n : ℤ)) else none)
  | _ => (parseNatStr s).bind (fun n => if n < 2 ^ 31 then some (n : ℤ) else none)

/-- All characters are decimal digits. -/
def allDigits (s : List Char) : Bool := s.all (fun c => c.isDigit)

/-- Numeric value of a digit string (0 when empty). -/
def digitsVal (s : List Char) : ℕ := s.foldl (fun acc c => 10 * acc + (c.toNat - 48)) 0

/-- Modelled from the spec: an unsigned decimal number, `digits` or
`digits.digits` (at least one digit overall), as an exact rational. -/
def parseDecimal (s : List Char) : Option ℚ :=
  match splitOnChar '.' s with
  | [a] => if a ≠ [] ∧ allDigits a = true then some ((digitsVal a : ℕ) : ℚ) else none
  | [a, b] =>
    if (a ≠ [] ∨ b ≠ []) ∧ allDigits a = true ∧ allDigits b = true then
      some (((digitsVal a : ℕ) : ℚ) + ((digitsVal b : ℕ) : ℚ) / 10 ^ b.length)
    else none
  | _ => none

/-- Modelled from the spec: the value of a parsed Ratio, kept symbolic so
that the irrational cents and step values stay exact: `cents c` denotes
2^(c/1200), `frac n d` denotes n/d, `dec q` denotes q, `step a b r` denotes
r^(a/b) (a steps of a b-step division of ratio r), and `inverse r` the
reciprocal (Ratio::inv). -/
inductive RatioVal where
  | cents (c : ℚ)
  | frac (n d : ℕ)
  | dec (q : ℚ)
  | step (num den : ℕ) (base : ℚ)
  | inverse (r : RatioVal)
  deriving DecidableEq

/-- Modelled from the spec: Ratio FromStr (tune::ratio is not under src/):
the four syntaxes cents ("700c"), fraction ("3/2"), decimal ("1.5") and
step notation ("1:12:2"); a parse failure carries the offending substring,
per the spec's error contract. -/
def parseRatioStr (s : List Char) : Except (List Char) RatioVal :=
  if ':' ∈ s then
    match splitOnChar ':' s with
    | [a, b, c] =>
      match parseNatStr a, parseNatStr b, parseDecimal c with
      | some n, some d, some q => if d ≠ 0 then .ok (.step n d q) else .error s
      | _, _, _ => .error s
    | _ => .error s
  else if h : s ≠ [] ∧ s.getLast? = some 'c' then
    match parseDecimal s.dropLast with
    | some q => .ok (.cents q)
    | none => .error s
  else if '/' ∈ s then
    match splitOnChar '/' s with
    | [a, b] =>
      match parseNatStr a, parseNatStr b with
      | some n, some d => if d ≠ 0 then .ok (.frac n d) else .error s
      | _, _ => .error s
    | _ => .error s
  else
    match parseDecimal s with
    | some q => .ok (.dec q)
    | none => .error s

/-- Value of a pitch produced by the embedded parsing pipeline, kept
symbolic: `fromRatioHz r` is the float value of `r` taken as Hz
(Pitch::from_hz of Ratio::as_float), `ofNote n` is the standard pitch of
MIDI note `n` (440 Hz * 2^((n-69)/12), the default concert pitch), and
`altered n d` is that standard pitch multiplied by the interval `d`
(Note::alter_pitch_by). -/
inductive PitchVal where
  | fromRatioHz (r : RatioVal)
  | ofNote (midi : ℤ)
  | altered (midi : ℤ) (delta : RatioVal)
  deriving DecidableEq

/-- Result of parsing a reference-pitch expression: the piano key and the
symbolic pitch value.  This is the same Rust struct as `ReferencePitch`,
embedded at the exactness level the parsing pipeline needs. -/
structure RefPitchParsed where
  key : ℤ
  pitch : PitchVal
  deriving DecidableEq

/-- s.ends_with("Hz") || s.ends_with("hz") from Pitch::from_str
(src/src/pitch.rs:55). -/
def endsWithHz (s : List Char) : Bool :=
  match s.reverse with
  | 'z' :: 'H' :: _ => true
  | 'z' :: 'h' :: _ => true
  | _ => false

/-- Error message of Pitch::from_str for a frequency that fails to parse as
a Ratio (src/src/pitch.rs:59). -/
def invalidFreqMsg (freq e : List Char) : List Char :=
  "Invalid frequency: '".toList ++ freq ++ "': ".toList ++ e

/-- Fixed error message of Pitch::from_str for inputs without the Hz/hz
suffix (src/src/pitch.rs:62). -/
def mustEndHzMsg : List Char := "Must end with Hz or hz".toList

/-- Pitch::from_str from src/src/pitch.rs lines 51-65: the input must end
with Hz or hz; the prefix is parsed as a Ratio and taken as the frequency
in Hz. -/
def pitchFromStr (s : List Char) : Except (List Char) PitchVal :=
  if endsWithHz s then
    match parseRatioStr (s.take (s.length - 2)) with
    | .error e => .error (invalidFreqMsg (s.take (s.length - 2)) e)
    | .ok r => .ok (.fromRatioHz r)
  else .error mustEndHzMsg

/-- Error message of ReferencePitch::from_str for a note number that fails
to parse (src/src/pitch.rs:183). -/
def invalidNoteMsg (note : List Char) : List Char :=
  "Invalid note '".toList ++ note ++ "': Must be an integer".toList

/-- Error message of ReferencePitch::from_str for a pitch that fails to
parse (src/src/pitch.rs:186). -/
def invalidPitchMsg (pitch e : List Char) : List Char :=
  "Invalid pitch '".toList ++ pitch ++ "': ".toList ++ e

/-- Error message of ReferencePitch::from_str for a delta that fails to
parse (src/src/pitch.rs:197). -/
def invalidDeltaMsg (delta e : List Char) : List Char :=
  "Invalid delta '".toList ++ delta ++ "': ".toList ++ e

/-- Fixed error message of the final branch of ReferencePitch::from_str
(src/src/pitch.rs:214). -/
def refPitchHintMsg : List Char := "Must be an expression of type 69, 69@440Hz or 69+100c".toList

/-- ReferencePitch::from_str from src/src/pitch.rs lines 176-220: try to
split at a single top-level `@` (note@pitch), then at a single `+`
(note+delta, the standard pitch of the note raised by delta), then at a
single `-` (lowered by delta, Ratio::inv), and finally parse the whole
input as a bare integer note number. -/
def referencePitchFromStr (s : List Char) : Except (List Char) RefPitchParsed :=
  match splitOnChar '@' s with
  | [note, pitch] =>
    match parseI32 note with
    | none => .error (invalidNoteMsg note)
    | some n =>
      match pitchFromStr pitch with
      | .error e => .error (invalidPitchMsg pitch e)
      | .ok pv => .ok ⟨pianoKeyFromMidiNumber n, pv⟩
  | _ =>
    match splitOnChar '+' s with
    | [note, delta] =>
      match parseI32 note with
      | none => .error (invalidNoteMsg note)
      | some n =>
        match parseRatioStr delta with
        | .error e => .error (invalidDeltaMsg delta e)
        | .ok d => .ok ⟨n, .altered n d⟩
    | _ =>
      match splitOnChar '-' s with
      | [note, delta] =>
        match parseI32 note with
        | none => .error (invalidNoteMsg note)
        | some n =>
          match parseRatioStr delta with
          | .error e => .error (invalidDeltaMsg delta e)
          | .ok d => .ok ⟨n, .altered n (.inverse d)⟩
      | _ =>
        match parseI32 s with
        | none => .error refPitchHintMsg
        | some n => .ok ⟨n, .ofNote n⟩

/-- The pattern begins the string. -/
def beginsWith : List Char → List Char → Bool
  | [], _ => true
  | _ :: _, [] => false
  | a :: ps, b :: ss => a = b && beginsWith ps ss

/-- The pattern occurs somewhere inside the string. -/
def occursIn (pat : List Char) : List Char → Bool
  | [] => beginsWith pat []
  | c :: rest => beginsWith pat (c :: rest) || occursIn pat rest

/-- The `@` form of a reference-pitch expression: note@pitch with the note
an i32 literal and the pitch a frequency expression, binding that key to
that pitch. -/
def FormAt (s : List Char) (r : RefPitchParsed) : Prop :=
  ∃ note pitch n pv, s = note ++ '@' :: pitch ∧ '@' ∉ note ∧ '@' ∉ pitch ∧
    parseI32 note = some n ∧ pitchFromStr pitch = .ok pv ∧ r = ⟨n, pv⟩

/-- The `+` form: note+delta, the note's standard pitch raised by the
interval delta. -/
def FormPlus (s : List Char) (r : RefPitchParsed) : Prop :=
  ∃ note delta n d, s = note ++ '+' :: delta ∧ '+' ∉ note ∧
    parseI32 note = some n ∧ parseRatioStr delta = .ok d ∧
    r = ⟨n, PitchVal.altered n d⟩

/-- The `-` form: note-delta, the note's standard pitch lowered by the
interval delta (its inverse applied). -/
def FormMinus (s : List Char) (r : RefPitchParsed) : Prop :=
  ∃ note delta n d, s = note ++ '-' :: delta ∧ '-' ∉ note ∧ '+' ∉ note ∧
    parseI32 note = some n ∧ parseRatioStr delta = .ok d ∧
    r = ⟨n, PitchVal.altered n (RatioVal.inverse d)⟩

/-- The bare form: an unsigned integer note number at its standard pitch
(a sign prefix is impossible here: it would be taken as a delta separator
and rejected, see the counterexample). -/
def FormBare (s : List Char) (r : RefPitchParsed) : Prop :=
  ∃ n, parseI32 s = some n ∧ '+' ∉ s ∧ '-' ∉ s ∧ r = ⟨n, PitchVal.ofNote n⟩

/-- Sample scale used by witnesses: a valid two-entry scale (a fifth and the
octave period). -/
def sampleScale : Scale := ⟨"sample", [3/2, 2]⟩

/-- Sample key map used by witnesses. -/
def sampleKeyMap : KeyMap := ⟨⟨69, ⟨440⟩⟩, 60⟩

/-- Sample one-entry scale (period 4) whose key pitches admit a rational
geometric midpoint, used by the tie-break witness. -/
def tieScale : Scale := ⟨"tie", [4]⟩

/-- Key map for the tie-break witness: reference pitch 100 Hz, root key 60. -/
def tieKeyMap : KeyMap := ⟨⟨69, ⟨100⟩⟩, 60⟩

/-! ## Helper lemmas -/

theorem getLastD_map_range (f : ℕ → ℚ) (n : ℕ) (hn : 0 < n) (d : ℚ) :
    ((List.range n).map f).getLastD d = f (n - 1) := by
  obtain ⟨m, rfl⟩ : ∃ m, n = m + 1 := ⟨n - 1, by omega⟩
  rw [List.range_succ, List.map_append]
  simp

theorem rat_le_num (q : ℚ) (h : 1 ≤ q) : q ≤ (q.num : ℚ) := by
  have hden : (0 : ℚ) < (q.den : ℚ) := by exact_mod_cast q.den_pos
  have hone : (1 : ℚ) ≤ (q.den : ℚ) := by exact_mod_cast q.den_pos
  have hnum : (0 : ℚ) ≤ (q.num : ℚ) := by
    have : (0 : ℤ) ≤ q.num := Rat.num_nonneg.mpr (le_trans zero_le_one h)
    exact_mod_cast this
  calc q = (q.num : ℚ) / (q.den : ℚ) := (Rat.num_div_den q).symm
    _ ≤ (q.num : ℚ) := by
        rw [div_le_iff hden]
        exact le_mul_of_one_le_right hnum hone

theorem rat_cast_lt_two_pow (n : ℕ) : (n : ℚ) < 2 ^ n := by exact_mod_cast Nat.lt_two_pow n

theorem rat_one_div_den_le (q : ℚ) (hq : 0 < q) : 1 / (q.den : ℚ) ≤ q := by
  have hden : (0 : ℚ) < (q.den : ℚ) := by exact_mod_cast q.den_pos
  have hnum : (1 : ℚ) ≤ (q.num : ℚ) := by
    have : (1 : ℤ) ≤ q.num := Rat.num_pos.mpr hq
    exact_mod_cast this
  calc 1 / (q.den : ℚ) ≤ (q.num : ℚ) / (q.den : ℚ) := by
        rw [div_le_div_iff hden hden]
        exact mul_le_mul_of_nonneg_right hnum (le_of_lt hden)
    _ = q := Rat.num_div_den q

theorem halveToOctave_correct : ∀ (fuel : ℕ) (q : ℚ), 1 ≤ q → q < 2 ^ fuel * 2 →
    q = 2 ^ (halveToOctave fuel q).1 * (halveToOctave fuel q).2 ∧
    1 ≤ (halveToOctave fuel q).2 ∧ (halveToOctave fuel q).2 < 2 := by
  intro fuel
  induction fuel with
  | zero =>
    intro q h1 h2
    rw [pow_zero, one_mul] at h2
    simp [halveToOctave, h2, h1]
  | succ n ih =>
    intro q h1 h2
    by_cases hq : q < 2
    · simp [halveToOctave, hq, h1]
    · have h2q : (2 : ℚ) ≤ q := not_lt.mp hq
      have h1' : 1 ≤ q / 2 := by
        rw [le_div_iff (by norm_num : (0:ℚ) < 2), one_mul]
        exact h2q
      have h2' : q / 2 < 2 ^ n * 2 := by
        rw [div_lt_iff (by norm_num : (0:ℚ) < 2)]
        calc q < 2 ^ (n + 1) * 2 := h2
          _ = 2 ^ n * 2 * 2 := by ring
      obtain ⟨he, hl, hu⟩ := ih (q / 2) h1' h2'
      have hres : halveToOctave (n + 1) q =
          ((halveToOctave n (q / 2)).1 + 1, (halveToOctave n (q / 2)).2) := by
        simp [halveToOctave, hq]
      rw [hres]
      refine ⟨?_, hl, hu⟩
      have hq2 : q = q / 2 * 2 := by field_simp
      rw [he] at hq2
      rw [zpow_add_one₀ (by norm_num : (2:ℚ) ≠ 0)]
      linear_combination hq2

theorem doubleToOctave_correct : ∀ (fuel : ℕ) (q : ℚ), 0 < q → q < 2 → 1 ≤ q * 2 ^ fuel →
    q = 2 ^ (doubleToOctave fuel q).1 * (doubleToOctave fuel q).2 ∧
    1 ≤ (doubleToOctave fuel q).2 ∧ (doubleToOctave fuel q).2 < 2 := by
  intro fuel
  induction fuel with
  | zero =>
    intro q h0 h2 h1
    rw [pow_zero, mul_one] at h1
    simp [doubleToOctave, h1, h2]
  | succ n ih =>
    intro q h0 h2 h1
    by_cases hq : 1 ≤ q
    · simp [doubleToOctave, hq, h2]
    · have hlt : q < 1 := not_le.mp hq
      have h0' : 0 < q * 2 := by positivity
      have h2' : q * 2 < 2 := by
        calc q * 2 < 1 * 2 := by
              exact mul_lt_mul_of_pos_right hlt (by norm_num)
          _ = 2 := one_mul 2
      have h1' : 1 ≤ q * 2 * 2 ^ n := by
        calc (1 : ℚ) ≤ q * 2 ^ (n + 1) := h1
          _ = q * 2 * 2 ^ n := by ring
      obtain ⟨he, hl, hu⟩ := ih (q * 2) h0' h2' h1'
      have hres : doubleToOctave (n + 1) q =
          ((doubleToOctave n (q * 2)).1 - 1, (doubleToOctave n (q * 2)).2) := by
        simp [doubleToOctave, hq]
      rw [hres]
      refine ⟨?_, hl, hu⟩
      have hq2 : q = q * 2 / 2 := by field_simp
      rw [he] at hq2
      rw [sub_eq_add_neg, zpow_add₀ (by norm_num : (2:ℚ) ≠ 0)]
      rw [zpow_neg, zpow_one]
      linear_combination hq2

theorem octaveReduce_correct (q : ℚ) (hq : 0 < q) :
    q = 2 ^ (octaveReduce q).1 * (octaveReduce q).2 ∧
    1 ≤ (octaveReduce q).2 ∧ (octaveReduce q).2 < 2 := by
  unfold octaveReduce
  by_cases h1 : 1 ≤ q
  · rw [if_pos h1]
    apply halveToOctave_correct _ _ h1
    have hnum : ((q.num.natAbs : ℕ) : ℚ) = (q.num : ℚ) := by
      have h0 : (0 : ℤ) ≤ q.num := Rat.num_nonneg.mpr (le_of_lt hq)
      rw [Int.cast_natAbs]
      exact_mod_cast abs_of_nonneg h0
    calc q ≤ (q.num : ℚ) := rat_le_num q h1
      _ = ((q.num.natAbs : ℕ) : ℚ) := hnum.symm
      _ < 2 ^ q.num.natAbs := rat_cast_lt_two_pow _
      _ < 2 ^ q.num.natAbs * 2 := by
          have : (0:ℚ) < 2 ^ q.num.natAbs := by positivity
          linarith
  · rw [if_neg h1]
    have hlt : q < 1 := not_le.mp h1
    apply doubleToOctave_correct _ _ hq (lt_trans hlt one_lt_two)
    have hden : (0 : ℚ) < (q.den : ℚ) := by exact_mod_cast q.den_pos
    have hd2 : (q.den : ℚ) < 2 ^ q.den := rat_cast_lt_two_pow _
    calc (1 : ℚ) = (1 / (q.den : ℚ)) * (q.den : ℚ) := by field_simp
      _ ≤ (1 / (q.den : ℚ)) * 2 ^ q.den := by
          apply mul_le_mul_of_nonneg_left (le_of_lt hd2)
          positivity
      _ ≤ q * 2 ^ q.den := by
          apply mul_le_mul_of_nonneg_right (rat_one_div_den_le q hq)
          positivity

theorem convergentLoop_le : ∀ (fuel pPrev qPrev pCur qCur num den limit : ℕ),
    pCur ≤ limit → qCur ≤ limit →
    (convergentLoop fuel pPrev qPrev pCur qCur num den limit).1 ≤ limit ∧
    (convergentLoop fuel pPrev qPrev pCur qCur num den limit).2 ≤ limit := by
  intro fuel
  induction fuel with
  | zero =>
    intro pPrev qPrev pCur qCur num den limit hp hq
    exact ⟨hp, hq⟩
  | succ n ih =>
    intro pPrev qPrev pCur qCur num den limit hp hq
    by_cases hden : den = 0
    · simp [convergentLoop, hden, hp, hq]
    · by_cases hk : num / den * pCur + pPrev ≤ limit ∧ num / den * qCur + qPrev ≤ limit
      · have hres : convergentLoop (n + 1) pPrev qPrev pCur qCur num den limit =
            convergentLoop n pCur qCur (num / den * pCur + pPrev)
              (num / den * qCur + qPrev) den (num % den) limit := by
          simp [convergentLoop, hden, hk]
        rw [hres]
        exact ih _ _ _ _ _ _ _ hk.1 hk.2
      · have hres : convergentLoop (n + 1) pPrev qPrev pCur qCur num den limit =
            (pCur, qCur) := by
          simp [convergentLoop, hden, hk]
        rw [hres]
        exact ⟨hp, hq⟩

theorem mem_Ico_div_eq_one (rem : ℚ) (h1 : 1 ≤ rem) (h2 : rem < 2) :
    rem.num.toNat / rem.den = 1 := by
  have ha : (rem.den : ℤ) ≤ rem.num := by
    have h := Rat.le_def.mp h1
    simp only [Rat.num_one, Rat.den_one, one_mul, mul_one, Nat.cast_one] at h
    exact h
  have hb : rem.num < 2 * (rem.den : ℤ) := by
    have h := Rat.lt_def.mp h2
    norm_num at h
    exact h
  have hd : 0 < rem.den := rem.den_pos
  apply Nat.div_eq_of_lt_le
  · omega
  · omega

theorem glogUp_correct : ∀ (fuel : ℕ) (b x : ℚ), 1 < b → 1 ≤ x → x < b ^ fuel →
    b ^ glogUp fuel b x ≤ x ∧ x < b ^ (glogUp fuel b x + 1) := by
  intro fuel
  induction fuel with
  | zero =>
    intro b x hb hx hf
    rw [pow_zero] at hf
    exact absurd hx (not_le.mpr hf)
  | succ n ih =>
    intro b x hb hx hf
    have hbpos : (0 : ℚ) < b := lt_trans one_pos hb
    by_cases hxb : x < b
    · simp only [glogUp, hxb, if_pos]
      rw [zpow_zero, zero_add, zpow_one]
      exact ⟨hx, hxb⟩
    · have hbx : b ≤ x := not_lt.mp hxb
      have hx' : 1 ≤ x / b := by
        rw [le_div_iff hbpos, one_mul]
        exact hbx
      have hf' : x / b < b ^ n := by
        rw [div_lt_iff hbpos]
        calc x < b ^ (n + 1) := hf
          _ = b ^ n * b := pow_succ b n
      obtain ⟨hl, hu⟩ := ih b (x / b) hb hx' hf'
      have hres : glogUp (n + 1) b x = glogUp n b (x / b) + 1 := by
        simp [glogUp, hxb]
      rw [hres]
      constructor
      · rw [zpow_add_one₀ (ne_of_gt hbpos)]
        calc b ^ glogUp n b (x / b) * b ≤ x / b * b :=
              mul_le_mul_of_nonneg_right hl (le_of_lt hbpos)
          _ = x := div_mul_cancel₀ x (ne_of_gt hbpos)
      · rw [zpow_add_one₀ (ne_of_gt hbpos) (glogUp n b (x / b) + 1)]
        have h1 : x / b * b < b ^ (glogUp n b (x / b) + 1) * b :=
          mul_lt_mul_of_pos_right hu hbpos
        rw [div_mul_cancel₀ x (ne_of_gt hbpos)] at h1
        exact h1

theorem rat_one_add_inv_den_le (b : ℚ) (hb : 1 < b) : 1 + 1 / (b.den : ℚ) ≤ b := by
  have hden : (0 : ℚ) < (b.den : ℚ) := by exact_mod_cast b.den_pos
  have hnum : ((b.den : ℤ) : ℚ) + 1 ≤ (b.num : ℚ) := by
    have h := Rat.lt_def.mp hb
    simp only [Rat.num_one, Rat.den_one, one_mul, mul_one, Nat.cast_one] at h
    have : (b.den : ℤ) + 1 ≤ b.num := h
    exact_mod_cast this
  calc 1 + 1 / (b.den : ℚ) = ((b.den : ℚ) + 1) / (b.den : ℚ) := by field_simp
    _ ≤ (b.num : ℚ) / (b.den : ℚ) := by
        rw [div_le_div_iff hden hden]
        apply mul_le_mul_of_nonneg_right _ (le_of_lt hden)
        exact_mod_cast hnum
    _ = b := Rat.num_div_den b

theorem glogUp_fuel (b x : ℚ) (hb : 1 < b) (hx : 1 ≤ x) : x < b ^ glogFuelUp b x := by
  have hden : (0 : ℚ) < (b.den : ℚ) := by exact_mod_cast b.den_pos
  have hble : 1 + 1 / (b.den : ℚ) ≤ b := rat_one_add_inv_den_le b hb
  have hinv : (0 : ℚ) ≤ 1 / (b.den : ℚ) := by positivity
  have hxnum : x ≤ ((x.num.natAbs : ℕ) : ℚ) := by
    have h0 : (0 : ℤ) ≤ x.num := Rat.num_nonneg.mpr (le_trans zero_le_one hx)
    have : ((x.num.natAbs : ℕ) : ℚ) = (x.num : ℚ) := by
      rw [Int.cast_natAbs]
      exact_mod_cast abs_of_nonneg h0
    rw [this]
    exact rat_le_num x hx
  have hbern : 1 + ((glogFuelUp b x : ℕ) : ℚ) * (1 / (b.den : ℚ)) ≤
      (1 + 1 / (b.den : ℚ)) ^ glogFuelUp b x :=
    one_add_mul_le_pow (by linarith) _
  have hpow : (1 + 1 / (b.den : ℚ)) ^ glogFuelUp b x ≤ b ^ glogFuelUp b x :=
    pow_le_pow_left (by positivity) hble _
  have hfuel : ((glogFuelUp b x : ℕ) : ℚ) * (1 / (b.den : ℚ)) >
      ((x.num.natAbs : ℕ) : ℚ) := by
    unfold glogFuelUp
    push_cast
    rw [add_mul, one_mul]
    have h1 : (b.den : ℚ) * (x.num.natAbs : ℚ) * (1 / (b.den : ℚ)) = (x.num.natAbs : ℚ) := by
      field_simp
    rw [h1]
    have hinv2 : (0 : ℚ) < 1 / (b.den : ℚ) := by positivity
    linarith
  calc x ≤ ((x.num.natAbs : ℕ) : ℚ) := hxnum
    _ < 1 + ((glogFuelUp b x : ℕ) : ℚ) * (1 / (b.den : ℚ)) := by linarith
    _ ≤ (1 + 1 / (b.den : ℚ)) ^ glogFuelUp b x := hbern
    _ ≤ b ^ glogFuelUp b x := hpow

theorem glogDown_correct : ∀ (fuel : ℕ) (b x : ℚ), 1 < b → 0 < x → x < b →
    1 ≤ x * b ^ fuel →
    b ^ glogDown fuel b x ≤ x ∧ x < b ^ (glogDown fuel b x + 1) := by
  intro fuel
  induction fuel with
  | zero =>
    intro b x hb hx0 hxb hf
    rw [pow_zero, mul_one] at hf
    simp only [glogDown]
    rw [zpow_zero, zero_add, zpow_one]
    exact ⟨hf, hxb⟩
  | succ n ih =>
    intro b x hb hx0 hxb hf
    have hbpos : (0 : ℚ) < b := lt_trans one_pos hb
    by_cases hx1 : 1 ≤ x
    · simp only [glogDown, hx1, if_pos]
      rw [zpow_zero, zero_add, zpow_one]
      exact ⟨hx1, hxb⟩
    · have hlt : x < 1 := not_le.mp hx1
      have h0' : 0 < x * b := mul_pos hx0 hbpos
      have h2' : x * b < b := by
        calc x * b < 1 * b := mul_lt_mul_of_pos_right hlt hbpos
          _ = b := one_mul b
      have h1' : 1 ≤ x * b * b ^ n := by
        calc (1 : ℚ) ≤ x * b ^ (n + 1) := hf
          _ = x * b * b ^ n := by rw [pow_succ]; ring
      obtain ⟨hl, hu⟩ := ih b (x * b) hb h0' h2' h1'
      have hres : glogDown (n + 1) b x = glogDown n b (x * b) - 1 := by
        simp [glogDown, hx1]
      rw [hres]
      constructor
      · rw [sub_eq_add_neg, zpow_add₀ (ne_of_gt hbpos), zpow_neg, zpow_one]
        have h2 : b ^ glogDown n b (x * b) * b⁻¹ ≤ x * b * b⁻¹ :=
          mul_le_mul_of_nonneg_right hl (inv_nonneg.mpr (le_of_lt hbpos))
        rwa [mul_inv_cancel_right₀ (ne_of_gt hbpos)] at h2
      · have hg : glogDown n b (x * b) - 1 + 1 = glogDown n b (x * b) := by ring
        rw [hg]
        have h2 : x * b < b ^ glogDown n b (x * b) * b := by
          rw [← zpow_add_one₀ (ne_of_gt hbpos)]
          exact hu
        exact lt_of_mul_lt_mul_right (by linarith) (le_of_lt hbpos)

theorem glogDown_fuel (b x : ℚ) (hb : 1 < b) (hx0 : 0 < x) :
    1 ≤ x * b ^ glogFuelDown b x := by
  have hden : (0 : ℚ) < (b.den : ℚ) := by exact_mod_cast b.den_pos
  have hxden : (0 : ℚ) < (x.den : ℚ) := by exact_mod_cast x.den_pos
  have hble : 1 + 1 / (b.den : ℚ) ≤ b := rat_one_add_inv_den_le b hb
  have hinv : (0 : ℚ) ≤ 1 / (b.den : ℚ) := by positivity
  have hbern : 1 + ((glogFuelDown b x : ℕ) : ℚ) * (1 / (b.den : ℚ)) ≤
      (1 + 1 / (b.den : ℚ)) ^ glogFuelDown b x :=
    one_add_mul_le_pow (by linarith) _
  have hpow : (1 + 1 / (b.den : ℚ)) ^ glogFuelDown b x ≤ b ^ glogFuelDown b x :=
    pow_le_pow_left (by positivity) hble _
  have hfuel : ((glogFuelDown b x : ℕ) : ℚ) * (1 / (b.den : ℚ)) > (x.den : ℚ) := by
    unfold glogFuelDown
    push_cast
    rw [add_mul, one_mul]
    have h1 : (b.den : ℚ) * (x.den : ℚ) * (1 / (b.den : ℚ)) = (x.den : ℚ) := by
      field_simp
    rw [h1]
    have : (0 : ℚ) < 1 / (b.den : ℚ) := by positivity
    linarith
  have hbig : (x.den : ℚ) < b ^ glogFuelDown b x := by
    calc (x.den : ℚ) < 1 + ((glogFuelDown b x : ℕ) : ℚ) * (1 / (b.den : ℚ)) := by linarith
      _ ≤ (1 + 1 / (b.den : ℚ)) ^ glogFuelDown b x := hbern
      _ ≤ b ^ glogFuelDown b x := hpow
  calc (1 : ℚ) = (1 / (x.den : ℚ)) * (x.den : ℚ) := by field_simp
    _ ≤ (1 / (x.den : ℚ)) * b ^ glogFuelDown b x := by
        apply mul_le_mul_of_nonneg_left (le_of_lt hbig)
        positivity
    _ ≤ x * b ^ glogFuelDown b x := by
        apply mul_le_mul_of_nonneg_right (rat_one_div_den_le x hx0)
        have hbpos : (0 : ℚ) < b := lt_trans one_pos hb
        positivity

theorem glog_correct (b x : ℚ) (hb : 1 < b) (hx : 0 < x) :
    b ^ glog b x ≤ x ∧ x < b ^ (glog b x + 1) := by
  unfold glog
  by_cases h1 : 1 ≤ x
  · rw [if_pos h1]
    exact glogUp_correct _ b x hb h1 (glogUp_fuel b x hb h1)
  · rw [if_neg h1]
    exact glogDown_correct _ b x hb hx (lt_trans (not_le.mp h1) hb)
      (glogDown_fuel b x hb hx)

theorem scanDeg_le_length (y : ℚ) : ∀ l : List ℚ, scanDeg y l ≤ l.length := by
  intro l
  induction l with
  | nil => simp [scanDeg]
  | cons t rest ih =>
    by_cases h : t ≤ y
    · simp only [scanDeg, h, if_pos, List.length_cons]
      omega
    · simp [scanDeg, h]

theorem scanDeg_lt (y : ℚ) : ∀ l : List ℚ, scanDeg y l < l.length →
    y < l.getD (scanDeg y l) 1 := by
  intro l
  induction l with
  | nil => intro h; simp [scanDeg] at h
  | cons t rest ih =>
    intro h
    by_cases ht : t ≤ y
    · simp only [scanDeg, ht, if_pos] at h ⊢
      rw [List.getD_cons_succ]
      exact ih (by simpa using h)
    · simp only [scanDeg, ht, if_neg, not_false_iff, List.getD_cons_zero]
      exact not_le.mp ht

theorem scanDeg_get_le (y : ℚ) : ∀ l : List ℚ, 0 < scanDeg y l →
    l.getD (scanDeg y l - 1) 1 ≤ y := by
  intro l
  induction l with
  | nil => intro h; simp [scanDeg] at h
  | cons t rest ih =>
    intro h
    by_cases ht : t ≤ y
    · simp only [scanDeg, ht, if_pos]
      rcases Nat.eq_zero_or_pos (scanDeg y rest) with h0 | hpos
      · rw [h0]
        simpa using ht
      · have hd : scanDeg y rest + 1 - 1 = (scanDeg y rest - 1) + 1 := by omega
        rw [hd, List.getD_cons_succ]
        exact ih hpos
    · simp [scanDeg, ht] at h

theorem chainLT_strict : ∀ (l : List ℚ) (a : ℚ), chainLT a l = true →
    (∀ i, i < l.length → a < l.getD i 1) ∧
    (∀ i j, i < j → j < l.length → l.getD i 1 < l.getD j 1) := by
  intro l
  induction l with
  | nil =>
    intro a _
    constructor
    · intro i hi; simp at hi
    · intro i j _ hj; simp at hj
  | cons t rest ih =>
    intro a hc
    have hc' : a < t ∧ chainLT t rest = true := by
      simpa [chainLT] using hc
    obtain ⟨hA, hS⟩ := ih t hc'.2
    constructor
    · intro i hi
      cases i with
      | zero => simpa using hc'.1
      | succ i' =>
        rw [List.getD_cons_succ]
        exact lt_trans hc'.1 (hA i' (by simpa using hi))
    · intro i j hij hj
      cases j with
      | zero => omega
      | succ j' =>
        rw [List.getD_cons_succ]
        cases i with
        | zero =>
          rw [List.getD_cons_zero]
          exact hA j' (by simpa using hj)
        | succ i' =>
          rw [List.getD_cons_succ]
          exact hS i' j' (by omega) (by simpa using hj)

theorem getLastD_eq_getD : ∀ (l : List ℚ) (d : ℚ), l.getLastD d = l.getD (l.length - 1) d := by
  intro l
  induction l with
  | nil => intro d; rfl
  | cons t rest ih =>
    intro d
    cases rest with
    | nil => rfl
    | cons u tail =>
      have h1 : (t :: u :: tail).getLastD d = (u :: tail).getLastD d := by
        simp [List.getLastD]
      rw [h1, ih d]
      have h2 : (t :: u :: tail).length - 1 = ((u :: tail).length - 1) + 1 := by
        simp
      rw [h2, List.getD_cons_succ]

theorem dropLast_getD (l : List ℚ) (i : ℕ) (h : i < l.dropLast.length) :
    l.dropLast.getD i 1 = l.getD i 1 := by
  have h2 : i < l.length := by
    rw [List.length_dropLast] at h
    omega
  rw [List.getD_eq_getElem _ _ h, List.getD_eq_getElem _ _ h2]
  exact List.getElem_dropLast l i h

theorem degreeRatio_zero (s : Scale) : s.degreeRatio 0 = 1 := rfl

theorem period_eq_degreeRatio (s : Scale) (hne : s.ratios ≠ []) :
    s.period = s.degreeRatio s.ratios.length := by
  unfold Scale.period Scale.degreeRatio
  rw [getLastD_eq_getD]
  have hL : 0 < s.ratios.length := List.length_pos.mpr hne
  have h : s.ratios.length = (s.ratios.length - 1) + 1 := by omega
  conv_rhs => rw [h]
  rw [List.getD_cons_succ]

theorem degreeRatio_strictMono (s : Scale) (hc : chainLT 1 s.ratios = true) :
    ∀ i j, i < j → j ≤ s.ratios.length → s.degreeRatio i < s.degreeRatio j := by
  obtain ⟨hA, hS⟩ := chainLT_strict s.ratios 1 hc
  intro i j hij hj
  unfold Scale.degreeRatio
  cases j with
  | zero => omega
  | succ j' =>
    rw [List.getD_cons_succ]
    cases i with
    | zero =>
      rw [List.getD_cons_zero]
      exact hA j' (by omega)
    | succ i' =>
      rw [List.getD_cons_succ]
      exact hS i' j' (by omega) (by omega)

theorem degreeRatio_one_le (s : Scale) (hc : chainLT 1 s.ratios = true) :
    ∀ i, i ≤ s.ratios.length → 1 ≤ s.degreeRatio i := by
  intro i hi
  rcases Nat.eq_zero_or_pos i with h0 | hpos
  · rw [h0, degreeRatio_zero]
  · have h := degreeRatio_strictMono s hc 0 i hpos hi
    rw [degreeRatio_zero] at h
    exact le_of_lt h

theorem one_lt_period (s : Scale) (hne : s.ratios ≠ []) (hc : chainLT 1 s.ratios = true) :
    1 < s.period := by
  rw [period_eq_degreeRatio s hne]
  have hL : 0 < s.ratios.length := List.length_pos.mpr hne
  have h := degreeRatio_strictMono s hc 0 s.ratios.length hL (le_refl _)
  rwa [degreeRatio_zero] at h

theorem pitchOf_decomp (s : Scale) (km : KeyMap) (oct : ℤ) (deg : ℕ)
    (hL : 0 < s.ratios.length) (hdeg : deg < s.ratios.length) :
    pitchOf s km (km.rootKey + oct * (s.ratios.length : ℤ) + (deg : ℤ)) =
      km.refPitch.pitch.hz * s.period ^ oct * s.degreeRatio deg := by
  unfold pitchOf
  have harg : km.rootKey + oct * (s.ratios.length : ℤ) + (deg : ℤ) - km.rootKey
      = (deg : ℤ) + (s.ratios.length : ℤ) * oct := by ring
  rw [harg]
  have hLne : (s.ratios.length : ℤ) ≠ 0 := by
    have : s.ratios.length ≠ 0 := by omega
    exact_mod_cast this
  have hdegnn : (0 : ℤ) ≤ (deg : ℤ) := Int.natCast_nonneg deg
  have hdegl : (deg : ℤ) < (s.ratios.length : ℤ) := by exact_mod_cast hdeg
  rw [Int.add_mul_ediv_left _ oct hLne, Int.ediv_eq_zero_of_lt hdegnn hdegl, zero_add,
    Int.add_mul_emod_self_left, Int.emod_eq_of_lt hdegnn hdegl, Int.toNat_natCast]

theorem pitchOf_pos (s : Scale) (km : KeyMap) (hne : s.ratios ≠ [])
    (hc : chainLT 1 s.ratios = true) (href : 0 < km.refPitch.pitch.hz) (j : ℤ) :
    0 < pitchOf s km j := by
  unfold pitchOf
  have hbpos : (0 : ℚ) < s.period := lt_trans one_pos (one_lt_period s hne hc)
  have hL : 0 < s.ratios.length := List.length_pos.mpr hne
  have hLz : (0 : ℤ) < (s.ratios.length : ℤ) := by exact_mod_cast hL
  have hmod : (j - km.rootKey) % (s.ratios.length : ℤ) < (s.ratios.length : ℤ) :=
    Int.emod_lt_of_pos _ hLz
  have hmodnn : 0 ≤ (j - km.rootKey) % (s.ratios.length : ℤ) :=
    Int.emod_nonneg _ (ne_of_gt hLz)
  have hidx : ((j - km.rootKey) % (s.ratios.length : ℤ)).toNat ≤ s.ratios.length := by
    omega
  exact mul_pos (mul_pos href (zpow_pos hbpos _))
    (lt_of_lt_of_le zero_lt_one (degreeRatio_one_le s hc _ hidx))

theorem pitchOf_lt_succ (s : Scale) (km : KeyMap) (hne : s.ratios ≠ [])
    (hc : chainLT 1 s.ratios = true) (href : 0 < km.refPitch.pitch.hz) (j : ℤ) :
    pitchOf s km j < pitchOf s km (j + 1) := by
  have hL : 0 < s.ratios.length := List.length_pos.mpr hne
  have hLz : (0 : ℤ) < (s.ratios.length : ℤ) := by exact_mod_cast hL
  have hb1 : 1 < s.period := one_lt_period s hne hc
  have hbpos : (0 : ℚ) < s.period := lt_trans one_pos hb1
  have hdegnn : 0 ≤ (j - km.rootKey) % (s.ratios.length : ℤ) :=
    Int.emod_nonneg _ (ne_of_gt hLz)
  have hdeglt : (j - km.rootKey) % (s.ratios.length : ℤ) < (s.ratios.length : ℤ) :=
    Int.emod_lt_of_pos _ hLz
  set oct : ℤ := (j - km.rootKey) / (s.ratios.length : ℤ) with hoct
  set deg : ℕ := ((j - km.rootKey) % (s.ratios.length : ℤ)).toNat with hdegd
  have hdegz : (deg : ℤ) = (j - km.rootKey) % (s.ratios.length : ℤ) :=
    Int.toNat_of_nonneg hdegnn
  have hdegL : deg < s.ratios.length := by omega
  have hj : j = km.rootKey + oct * (s.ratios.length : ℤ) + (deg : ℤ) := by
    have h := Int.ediv_add_emod (j - km.rootKey) (s.ratios.length : ℤ)
    have hcm : (s.ratios.length : ℤ) * oct = oct * (s.ratios.length : ℤ) := mul_comm _ _
    linarith [h, hcm, hdegz]
  have h1 : pitchOf s km j = km.refPitch.pitch.hz * s.period ^ oct * s.degreeRatio deg := by
    conv_lhs => rw [hj]
    exact pitchOf_decomp s km oct deg hL hdegL
  by_cases hcase : deg + 1 < s.ratios.length
  · have harg : j + 1 = km.rootKey + oct * (s.ratios.length : ℤ) + ((deg + 1 : ℕ) : ℤ) := by
      rw [hj]; push_cast; ring
    have h2 : pitchOf s km (j + 1) =
        km.refPitch.pitch.hz * s.period ^ oct * s.degreeRatio (deg + 1) := by
      rw [harg]
      exact pitchOf_decomp s km oct (deg + 1) hL hcase
    rw [h1, h2]
    exact mul_lt_mul_of_pos_left
      (degreeRatio_strictMono s hc deg (deg + 1) (by omega) (by omega))
      (mul_pos href (zpow_pos hbpos _))
  · have hdegeq : deg + 1 = s.ratios.length := by omega
    have hdl : (deg : ℤ) + 1 = (s.ratios.length : ℤ) := by exact_mod_cast hdegeq
    have harg : j + 1 = km.rootKey + (oct + 1) * (s.ratios.length : ℤ) + ((0 : ℕ) : ℤ) := by
      rw [hj]
      push_cast
      linear_combination hdl
    have h2 : pitchOf s km (j + 1) =
        km.refPitch.pitch.hz * s.period ^ (oct + 1) * s.degreeRatio 0 := by
      rw [harg]
      exact pitchOf_decomp s km (oct + 1) 0 hL hL
    rw [h1, h2, degreeRatio_zero, mul_one, zpow_add_one₀ (ne_of_gt hbpos)]
    have hstep : s.degreeRatio deg < s.period := by
      rw [period_eq_degreeRatio s hne]
      exact degreeRatio_strictMono s hc deg s.ratios.length (by omega) (le_refl _)
    calc km.refPitch.pitch.hz * s.period ^ oct * s.degreeRatio deg
        < km.refPitch.pitch.hz * s.period ^ oct * s.period :=
          mul_lt_mul_of_pos_left hstep (mul_pos href (zpow_pos hbpos _))
      _ = km.refPitch.pitch.hz * (s.period ^ oct * s.period) := by ring

theorem pitchOf_mono (s : Scale) (km : KeyMap) (hne : s.ratios ≠ [])
    (hc : chainLT 1 s.ratios = true) (href : 0 < km.refPitch.pitch.hz) :
    ∀ j k : ℤ, j ≤ k → pitchOf s km j ≤ pitchOf s km k := by
  intro j k hjk
  refine Int.le_induction (P := fun n => pitchOf s km j ≤ pitchOf s km n) (le_refl _) ?_ k hjk
  intro n _ ih
  exact le_trans ih (le_of_lt (pitchOf_lt_succ s km hne hc href n))

theorem splitOnChar_ne_nil (sep : Char) : ∀ s, splitOnChar sep s ≠ [] := by
  intro s
  induction s with
  | nil => simp [splitOnChar]
  | cons c rest ih =>
    by_cases hc : c = sep
    · simp [splitOnChar, hc]
    · simp only [splitOnChar, hc, if_neg, not_false_iff]
      cases hps : splitOnChar sep rest with
      | nil => exact absurd hps ih
      | cons hd tl => simp

theorem joinParts_cons_head (sep c : Char) (hd : List Char) (tl : List (List Char)) :
    joinParts sep ((c :: hd) :: tl) = c :: joinParts sep (hd :: tl) := by
  cases tl with
  | nil => rfl
  | cons a tl2 => rfl

theorem joinParts_splitOnChar (sep : Char) : ∀ s, joinParts sep (splitOnChar sep s) = s := by
  intro s
  induction s with
  | nil => rfl
  | cons c rest ih =>
    by_cases hc : c = sep
    · simp only [splitOnChar, hc, if_pos]
      cases hps : splitOnChar sep rest with
      | nil => exact absurd hps (splitOnChar_ne_nil sep rest)
      | cons hd tl =>
        have : joinParts sep ([] :: hd :: tl) = sep :: joinParts sep (hd :: tl) := rfl
        rw [this, ← hps, ih]
    · simp only [splitOnChar, hc, if_neg, not_false_iff]
      cases hps : splitOnChar sep rest with
      | nil => exact absurd hps (splitOnChar_ne_nil sep rest)
      | cons hd tl =>
        rw [joinParts_cons_head, ← hps, ih]

theorem splitOnChar_sep_notMem (sep : Char) :
    ∀ s, ∀ part ∈ splitOnChar sep s, sep ∉ part := by
  intro s
  induction s with
  | nil =>
    intro part hpart
    simp [splitOnChar] at hpart
    simp [hpart]
  | cons c rest ih =>
    intro part hpart
    by_cases hc : c = sep
    · simp only [splitOnChar, hc, if_pos] at hpart
      rcases List.mem_cons.mp hpart with h0 | hmem
      · simp [h0]
      · exact ih part hmem
    · simp only [splitOnChar, hc, if_neg, not_false_iff] at hpart
      cases hps : splitOnChar sep rest with
      | nil => exact absurd hps (splitOnChar_ne_nil sep rest)
      | cons hd tl =>
        rw [hps] at hpart
        rcases List.mem_cons.mp hpart with h0 | hmem
        · subst h0
          intro hmem2
          rcases List.mem_cons.mp hmem2 with h1 | h2
          · exact hc h1.symm
          · exact ih hd (by rw [hps]; exact List.mem_cons_self hd tl) h2
        · exact ih part (by rw [hps]; exact List.mem_cons_of_mem hd hmem)

theorem splitOnChar_of_notMem (sep : Char) : ∀ s, sep ∉ s → splitOnChar sep s = [s] := by
  intro s
  induction s with
  | nil => intro _; rfl
  | cons c rest ih =>
    intro hmem
    have hc : c ≠ sep := fun h => hmem (by rw [h]; exact List.mem_cons_self sep rest)
    have hrest : sep ∉ rest := fun h => hmem (List.mem_cons_of_mem c h)
    simp only [splitOnChar, hc, if_neg, not_false_iff]
    rw [ih hrest]

theorem splitOnChar_pair_mpr (sep : Char) :
    ∀ (a b : List Char), sep ∉ a → sep ∉ b → splitOnChar sep (a ++ sep :: b) = [a, b] := by
  intro a
  induction a with
  | nil =>
    intro b _ hb
    simp only [List.nil_append, splitOnChar, if_pos]
    rw [splitOnChar_of_notMem sep b hb]
  | cons c a2 ih =>
    intro b ha hb
    have hc : c ≠ sep := fun h => ha (by rw [h]; exact List.mem_cons_self sep a2)
    have ha2 : sep ∉ a2 := fun h => ha (List.mem_cons_of_mem c h)
    have : (c :: a2) ++ sep :: b = c :: (a2 ++ sep :: b) := rfl
    rw [this]
    simp only [splitOnChar, hc, if_neg, not_false_iff]
    rw [ih b ha2 hb]

theorem splitOnChar_pair_iff (sep : Char) (s a b : List Char) :
    splitOnChar sep s = [a, b] ↔ s = a ++ sep :: b ∧ sep ∉ a ∧ sep ∉ b := by
  constructor
  · intro h
    have hj := joinParts_splitOnChar sep s
    rw [h] at hj
    have hja : joinParts sep [a, b] = a ++ sep :: b := rfl
    refine ⟨by rw [← hj, hja], ?_, ?_⟩
    · exact splitOnChar_sep_notMem sep s a (by rw [h]; simp)
    · exact splitOnChar_sep_notMem sep s b (by rw [h]; simp)
  · rintro ⟨rfl, ha, hb⟩
    exact splitOnChar_pair_mpr sep a b ha hb

theorem mem_joinParts (sep : Char) (c : Char) :
    ∀ (parts : List (List Char)) (part : List Char), part ∈ parts → c ∈ part →
      c ∈ joinParts sep parts := by
  intro parts
  induction parts with
  | nil => intro part h; simp at h
  | cons a rest ih =>
    intro part hpart hc
    cases rest with
    | nil =>
      simp at hpart
      subst hpart
      exact hc
    | cons a2 rest2 =>
      have hja : joinParts sep (a :: a2 :: rest2) = a ++ sep :: joinParts sep (a2 :: rest2) := rfl
      rw [hja]
      rcases List.mem_cons.mp hpart with h0 | hmem
      · subst h0
        exact List.mem_append_left _ hc
      · exact List.mem_append_right _ (List.mem_cons_of_mem sep (ih part hmem hc))

theorem mem_of_mem_splitOnChar (sep : Char) (s part : List Char) (c : Char)
    (hpart : part ∈ splitOnChar sep s) (hc : c ∈ part) : c ∈ s := by
  have := mem_joinParts sep c (splitOnChar sep s) part hpart hc
  rwa [joinParts_splitOnChar sep s] at this

theorem mem_joinParts_cases (sep : Char) (c : Char) :
    ∀ parts : List (List Char), c ∈ joinParts sep parts →
      c = sep ∨ ∃ part ∈ parts, c ∈ part := by
  intro parts
  induction parts with
  | nil => intro h; simp [joinParts] at h
  | cons a rest ih =>
    intro hc
    cases rest with
    | nil =>
      right
      exact ⟨a, by simp, hc⟩
    | cons a2 rest2 =>
      have hja : joinParts sep (a :: a2 :: rest2) = a ++ sep :: joinParts sep (a2 :: rest2) := rfl
      rw [hja] at hc
      rcases List.mem_append.mp hc with h1 | h2
      · right; exact ⟨a, by simp, h1⟩
      · rcases List.mem_cons.mp h2 with h3 | h4
        · left; exact h3
        · rcases ih h4 with h5 | ⟨part, hp1, hp2⟩
          · left; exact h5
          · right; exact ⟨part, List.mem_cons_of_mem a hp1, hp2⟩

theorem mem_splitOnChar_cases (sep : Char) (s : List Char) (c : Char) (hc : c ∈ s) :
    c = sep ∨ ∃ part ∈ splitOnChar sep s, c ∈ part := by
  apply mem_joinParts_cases sep c (splitOnChar sep s)
  rwa [joinParts_splitOnChar sep s]

theorem digitsToNat_isDigit : ∀ (s : List Char) (acc n : ℕ), digitsToNat acc s = some n →
    ∀ c ∈ s, c.isDigit = true := by
  intro s
  induction s with
  | nil => intro acc n _ c hc; simp at hc
  | cons c0 rest ih =>
    intro acc n h c hc
    by_cases hd : c0.isDigit
    · rw [digitsToNat, if_pos hd] at h
      rcases List.mem_cons.mp hc with h0 | hmem
      · rw [h0]; exact hd
      · exact ih _ n h c hmem
    · rw [digitsToNat, if_neg hd] at h
      exact absurd h (by simp)

theorem parseNatStr_isDigit (s : List Char) (n : ℕ) (h : parseNatStr s = some n) :
    allDigits s = true ∧ s ≠ [] := by
  cases s with
  | nil => exact absurd h (by simp [parseNatStr])
  | cons c rest =>
    constructor
    · rw [allDigits, List.all_eq_true]
      exact fun c2 hc2 => digitsToNat_isDigit _ 0 n h c2 hc2
    · simp

theorem allDigits_notMem (s : List Char) (h : allDigits s = true) (c : Char)
    (hc : c.isDigit = false) : c ∉ s := by
  intro hmem
  have := List.all_eq_true.mp h c hmem
  rw [hc] at this
  exact Bool.false_ne_true this

theorem parseI32_shape (s : List Char) (z : ℤ) (h : parseI32 s = some z) :
    (allDigits s = true ∧ s ≠ []) ∨
      (∃ t, (s = '+' :: t ∨ s = '-' :: t) ∧ allDigits t = true ∧ t ≠ []) := by
  unfold parseI32 at h
  split at h
  · right
    rename_i rest
    cases hp : parseNatStr rest with
    | none => rw [hp] at h; exact absurd h (by simp)
    | some n =>
      obtain ⟨hd, hne⟩ := parseNatStr_isDigit rest n hp
      exact ⟨rest, Or.inl rfl, hd, hne⟩
  · right
    rename_i rest
    cases hp : parseNatStr rest with
    | none => rw [hp] at h; exact absurd h (by simp)
    | some n =>
      obtain ⟨hd, hne⟩ := parseNatStr_isDigit rest n hp
      exact ⟨rest, Or.inr rfl, hd, hne⟩
  · left
    cases hp : parseNatStr s with
    | none => rw [hp] at h; exact absurd h (by simp)
    | some n => exact parseNatStr_isDigit s n hp

theorem natStr_chars (a : List Char) (n : ℕ) (hp : parseNatStr a = some n) :
    ∀ c ∈ a, c.isDigit = true :=
  fun c hc => List.all_eq_true.mp (parseNatStr_isDigit a n hp).1 c hc

theorem parseDecimal_chars (s : List Char) (q : ℚ) (h : parseDecimal s = some q) :
    ∀ c ∈ s, c.isDigit = true ∨ c = '.' := by
  unfold parseDecimal at h
  split at h
  · rename_i a heq
    split at h
    · rename_i hcond
      have hj := joinParts_splitOnChar '.' s
      rw [heq] at hj
      have ha : a = s := hj
      intro c hc
      rw [← ha] at hc
      exact Or.inl (List.all_eq_true.mp hcond.2 c hc)
    · exact absurd h (by simp)
  · rename_i a b heq
    split at h
    · rename_i hcond
      obtain ⟨hs, _, _⟩ := (splitOnChar_pair_iff '.' s a b).mp heq
      intro c hc
      rw [hs] at hc
      rcases List.mem_append.mp hc with h1 | h2
      · exact Or.inl (List.all_eq_true.mp hcond.2.1 c h1)
      · rcases List.mem_cons.mp h2 with h3 | h4
        · exact Or.inr h3
        · exact Or.inl (List.all_eq_true.mp hcond.2.2 c h4)
    · exact absurd h (by simp)
  · exact absurd h (by simp)

theorem parseRatioStr_chars (s : List Char) (v : RatioVal) (h : parseRatioStr s = .ok v) :
    ∀ c ∈ s, c.isDigit = true ∨ c = '.' ∨ c = ':' ∨ c = '/' ∨ c = 'c' := by
  unfold parseRatioStr at h
  split at h
  · split at h
    · rename_i a b c3 heq
      split at h
      case _ n d q hpa hpb hpc =>
        split at h
        · have hj := joinParts_splitOnChar ':' s
          rw [heq] at hj
          have hs : a ++ ':' :: (b ++ ':' :: c3) = s := hj
          intro c hc
          rw [← hs] at hc
          rcases List.mem_append.mp hc with h1 | h2
          · exact Or.inl (natStr_chars a n hpa c h1)
          · rcases List.mem_cons.mp h2 with h3 | h4
            · exact Or.inr (Or.inr (Or.inl h3))
            · rcases List.mem_append.mp h4 with h5 | h6
              · exact Or.inl (natStr_chars b d hpb c h5)
              · rcases List.mem_cons.mp h6 with h7 | h8
                · exact Or.inr (Or.inr (Or.inl h7))
                · rcases parseDecimal_chars c3 q hpc c h8 with h9 | h9
                  · exact Or.inl h9
                  · exact Or.inr (Or.inl h9)
        · exact absurd h (by simp)
      all_goals exact absurd h (by simp)
    · exact absurd h (by simp)
  · split at h
    · rename_i hcents
      split at h
      case _ q hpd =>
        have hne : s ≠ [] := hcents.1
        have hlast : s.getLast hne = 'c' := by
          rw [List.getLast?_eq_getLast s hne] at hcents
          exact Option.some_inj.mp hcents.2
        intro c hc
        rw [← List.dropLast_append_getLast hne] at hc
        rcases List.mem_append.mp hc with h1 | h2
        · rcases parseDecimal_chars s.dropLast q hpd c h1 with h3 | h3
          · exact Or.inl h3
          · exact Or.inr (Or.inl h3)
        · rcases List.mem_cons.mp h2 with h3 | h4
          · rw [hlast] at h3
            exact Or.inr (Or.inr (Or.inr (Or.inr h3)))
          · simp at h4
      case _ hpd => exact absurd h (by simp)
    · split at h
      · split at h
        · rename_i a b heq
          split at h
          case _ n d hpa hpb =>
            split at h
            · obtain ⟨hs, _, _⟩ := (splitOnChar_pair_iff '/' s a b).mp heq
              intro c hc
              rw [hs] at hc
              rcases List.mem_append.mp hc with h1 | h2
              · exact Or.inl (natStr_chars a n hpa c h1)
              · rcases List.mem_cons.mp h2 with h3 | h4
                · exact Or.inr (Or.inr (Or.inr (Or.inl h3)))
                · exact Or.inl (natStr_chars b d hpb c h4)
            · exact absurd h (by simp)
          all_goals exact absurd h (by simp)
        · exact absurd h (by simp)
      · split at h
        case _ q hpd =>
          intro c hc
          rcases parseDecimal_chars s q hpd c hc with h1 | h1
          · exact Or.inl h1
          · exact Or.inr (Or.inl h1)
        case _ hpd => exact absurd h (by simp)

theorem parseRatioStr_no_sep (s : List Char) (v : RatioVal) (h : parseRatioStr s = .ok v) :
    '@' ∉ s ∧ '+' ∉ s ∧ '-' ∉ s := by
  refine ⟨?_, ?_, ?_⟩
  · intro hmem
    have hch := parseRatioStr_chars s v h '@' hmem
    revert hch
    decide
  · intro hmem
    have hch := parseRatioStr_chars s v h '+' hmem
    revert hch
    decide
  · intro hmem
    have hch := parseRatioStr_chars s v h '-' hmem
    revert hch
    decide

theorem parseI32_no_at (s : List Char) (z : ℤ) (h : parseI32 s = some z) : '@' ∉ s := by
  rcases parseI32_shape s z h with ⟨hd, _⟩ | ⟨t, hst, hd, _⟩
  · exact allDigits_notMem s hd '@' (by decide)
  · intro hmem
    rcases hst with rfl | rfl
    · rcases List.mem_cons.mp hmem with h1 | h1
      · exact absurd h1 (by decide)
      · exact allDigits_notMem t hd '@' (by decide) h1
    · rcases List.mem_cons.mp hmem with h1 | h1
      · exact absurd h1 (by decide)
      · exact allDigits_notMem t hd '@' (by decide) h1

/-! ## Claim theorems -/

theorem beginsWith_append (x t : List Char) : beginsWith x (x ++ t) = true := by
  induction x with
  | nil => rfl
  | cons c rest ih => simp [beginsWith, ih]

theorem occursIn_of_beginsWith (pat s : List Char) (h : beginsWith pat s = true) :
    occursIn pat s = true := by
  cases s with
  | nil => exact h
  | cons c rest => simp [occursIn, h]

theorem occursIn_append (a pat s : List Char) (h : occursIn pat s = true) :
    occursIn pat (a ++ s) = true := by
  induction a with
  | nil => exact h
  | cons c a2 ih => simp [occursIn, ih]

theorem occursIn_sandwich (a x b : List Char) : occursIn x (a ++ (x ++ b)) = true :=
  occursIn_append a x (x ++ b) (occursIn_of_beginsWith x (x ++ b) (beginsWith_append x b))

theorem occursIn_mid3 (pre x rest : List Char) : occursIn x (pre ++ x ++ rest) = true := by
  rw [List.append_assoc]
  exact occursIn_sandwich pre x rest

theorem occursIn_mid4 (pre x mid e : List Char) : occursIn x (pre ++ x ++ mid ++ e) = true := by
  have h : pre ++ x ++ mid ++ e = pre ++ (x ++ (mid ++ e)) := by
    simp [List.append_assoc]
  rw [h]
  exact occursIn_sandwich pre x (mid ++ e)

/-- C5 counterexample: "-5" parses as an i32 note number and is accepted in
the @ form (and, '-'-signed, in the + form), yet the bare expression "-5"
is rejected: the sign is taken as a delta separator, the empty note part
fails to parse, and an error is returned.  Likewise a '-'-signed note in
the - form ("-5-100c") and a '+'-signed note in the + form ("+5+100c") are
rejected because the sign makes the respective split produce three parts.
So "accepts exactly the four forms", with <midi-number> any integer
literal, fails. -/
theorem referencePitch_bare_signed_cex :
    parseI32 ("-5".toList) = some (-5) ∧
    referencePitchFromStr ("-5".toList) = .error (invalidNoteMsg []) ∧
    (referencePitchFromStr ("-5@440Hz".toList)).isOk = true ∧
    (referencePitchFromStr ("+5@440Hz".toList)).isOk = true ∧
    (referencePitchFromStr ("-5+100c".toList)).isOk = true ∧
    (referencePitchFromStr ("-5-100c".toList)).isOk = false ∧
    (referencePitchFromStr ("+5+100c".toList)).isOk = false :=
  ⟨rfl, rfl, rfl, rfl, rfl, rfl, rfl⟩

/-- C5 (amended): parsing a reference-pitch expression succeeds exactly on
the four forms: note@pitch, where the note number may carry a '+' or '-'
sign, binds the given key to the parsed pitch; note+delta, where the note
number may be unsigned or '-'-signed but not '+'-signed, yields the note's
standard pitch raised by delta; note-delta, where the note number must be
unsigned, yields the standard pitch lowered by delta; and a bare unsigned
integer yields the note's standard pitch.  A '+' or '-' sign on the note
in the latter three forms is consumed as a delta separator by an earlier
split, so those inputs are rejected (see the counterexample); every other
input returns a parse error. -/
theorem referencePitch_accepts_exactly (s : List Char) (r : RefPitchParsed) :
    referencePitchFromStr s = .ok r ↔
      FormAt s r ∨ FormPlus s r ∨ FormMinus s r ∨ FormBare s r := by
  constructor
  · intro h
    unfold referencePitchFromStr at h
    split at h
    · rename_i note pitch heq
      split at h
      · exact absurd h (by simp)
      · rename_i n hn
        split at h
        · exact absurd h (by simp)
        · rename_i pv hpv
          injection h with h2
          obtain ⟨hs, ha, hb⟩ := (splitOnChar_pair_iff '@' s note pitch).mp heq
          exact Or.inl ⟨note, pitch, n, pv, hs, ha, hb, hn, hpv, h2.symm⟩
    · rename_i hneAt
      split at h
      · rename_i note delta heq
        split at h
        · exact absurd h (by simp)
        · rename_i n hn
          split at h
          · exact absurd h (by simp)
          · rename_i d hd
            injection h with h2
            obtain ⟨hs, ha, hb⟩ := (splitOnChar_pair_iff '+' s note delta).mp heq
            exact Or.inr (Or.inl ⟨note, delta, n, d, hs, ha, hn, hd, h2.symm⟩)
      · rename_i hnePlus
        split at h
        · rename_i note delta heq
          split at h
          · exact absurd h (by simp)
          · rename_i n hn
            split at h
            · exact absurd h (by simp)
            · rename_i d hd
              injection h with h2
              obtain ⟨hs, ha, hb⟩ := (splitOnChar_pair_iff '-' s note delta).mp heq
              have hplusnote : '+' ∉ note := by
                intro hplus
                rcases parseI32_shape note n hn with ⟨hdg, _⟩ | ⟨t, hst, hdg, _⟩
                · exact allDigits_notMem note hdg '+' (by decide) hplus
                · rcases hst with rfl | rfl
                  · have hpt : '+' ∉ t := allDigits_notMem t hdg '+' (by decide)
                    have hpd : '+' ∉ delta := (parseRatioStr_no_sep delta d hd).2.1
                    have hsplus : splitOnChar '+' s = [[], t ++ '-' :: delta] := by
                      rw [hs]
                      have hshape : ('+' :: t) ++ '-' :: delta = [] ++ '+' :: (t ++ '-' :: delta) := by
                        simp
                      rw [hshape]
                      apply splitOnChar_pair_mpr '+'
                      · simp
                      · intro hmem
                        rcases List.mem_append.mp hmem with h5 | h6
                        · exact hpt h5
                        · rcases List.mem_cons.mp h6 with h7 | h8
                          · exact absurd h7 (by decide)
                          · exact hpd h8
                    exact hnePlus [] (t ++ '-' :: delta) hsplus
                  · rcases List.mem_cons.mp hplus with h5 | h6
                    · exact absurd h5 (by decide)
                    · exact allDigits_notMem t hdg '+' (by decide) h6
              exact Or.inr (Or.inr (Or.inl ⟨note, delta, n, d, hs, ha, hplusnote, hn, hd, h2.symm⟩))
        · rename_i hneMinus
          split at h
          · exact absurd h (by simp)
          · rename_i n hn
            injection h with h2
            have hplusS : '+' ∉ s := by
              intro hplus
              rcases parseI32_shape s n hn with ⟨hdg, _⟩ | ⟨t, hst, hdg, _⟩
              · exact allDigits_notMem s hdg '+' (by decide) hplus
              · rcases hst with rfl | rfl
                · have hpt : '+' ∉ t := allDigits_notMem t hdg '+' (by decide)
                  have hsplus : splitOnChar '+' ('+' :: t) = [[], t] := by
                    have hshape : ('+' :: t) = [] ++ '+' :: t := by simp
                    rw [hshape]
                    exact splitOnChar_pair_mpr '+' [] t (by simp) hpt
                  exact hnePlus [] t hsplus
                · rcases List.mem_cons.mp hplus with h5 | h6
                  · exact absurd h5 (by decide)
                  · exact allDigits_notMem t hdg '+' (by decide) h6
            have hminusS : '-' ∉ s := by
              intro hminus
              rcases parseI32_shape s n hn with ⟨hdg, _⟩ | ⟨t, hst, hdg, _⟩
              · exact allDigits_notMem s hdg '-' (by decide) hminus
              · rcases hst with rfl | rfl
                · rcases List.mem_cons.mp hminus with h5 | h6
                  · exact absurd h5 (by decide)
                  · exact allDigits_notMem t hdg '-' (by decide) h6
                · have hpt : '-' ∉ t := allDigits_notMem t hdg '-' (by decide)
                  have hsminus : splitOnChar '-' ('-' :: t) = [[], t] := by
                    have hshape : ('-' :: t) = [] ++ '-' :: t := by simp
                    rw [hshape]
                    exact splitOnChar_pair_mpr '-' [] t (by simp) hpt
                  exact hneMinus [] t hsminus
            exact Or.inr (Or.inr (Or.inr ⟨n, hn, hplusS, hminusS, h2.symm⟩))
  · intro hform
    rcases hform with hf | hf | hf | hf
    · obtain ⟨note, pitch, n, pv, hs, ha, hb, hn, hpv, hr⟩ := hf
      subst hs
      have hsplit : splitOnChar '@' (note ++ '@' :: pitch) = [note, pitch] :=
        splitOnChar_pair_mpr '@' note pitch ha hb
      unfold referencePitchFromStr
      rw [hsplit]
      simp only [hn, hpv, hr, pianoKeyFromMidiNumber]
    · obtain ⟨note, delta, n, d, hs, ha, hn, hd, hr⟩ := hf
      subst hs
      have hatnote : '@' ∉ note := parseI32_no_at note n hn
      have hatdelta : '@' ∉ delta := (parseRatioStr_no_sep delta d hd).1
      have hatS : '@' ∉ note ++ '+' :: delta := by
        intro hmem
        rcases List.mem_append.mp hmem with h1 | h2
        · exact hatnote h1
        · rcases List.mem_cons.mp h2 with h3 | h4
          · exact absurd h3 (by decide)
          · exact hatdelta h4
      have hdplus : '+' ∉ delta := (parseRatioStr_no_sep delta d hd).2.1
      have hsplitAt : splitOnChar '@' (note ++ '+' :: delta) = [note ++ '+' :: delta] :=
        splitOnChar_of_notMem '@' _ hatS
      have hsplitPlus : splitOnChar '+' (note ++ '+' :: delta) = [note, delta] :=
        splitOnChar_pair_mpr '+' note delta ha hdplus
      unfold referencePitchFromStr
      rw [hsplitAt]
      simp only []
      rw [hsplitPlus]
      simp only [hn, hd, hr]
    · obtain ⟨note, delta, n, d, hs, ha, haplus, hn, hd, hr⟩ := hf
      subst hs
      have hatnote : '@' ∉ note := parseI32_no_at note n hn
      have hnosep := parseRatioStr_no_sep delta d hd
      have hatS : '@' ∉ note ++ '-' :: delta := by
        intro hmem
        rcases List.mem_append.mp hmem with h1 | h2
        · exact hatnote h1
        · rcases List.mem_cons.mp h2 with h3 | h4
          · exact absurd h3 (by decide)
          · exact hnosep.1 h4
      have hplusS : '+' ∉ note ++ '-' :: delta := by
        intro hmem
        rcases List.mem_append.mp hmem with h1 | h2
        · exact haplus h1
        · rcases List.mem_cons.mp h2 with h3 | h4
          · exact absurd h3 (by decide)
          · exact hnosep.2.1 h4
      have hsplitAt : splitOnChar '@' (note ++ '-' :: delta) = [note ++ '-' :: delta] :=
        splitOnChar_of_notMem '@' _ hatS
      have hsplitPlus : splitOnChar '+' (note ++ '-' :: delta) = [note ++ '-' :: delta] :=
        splitOnChar_of_notMem '+' _ hplusS
      have hsplitMinus : splitOnChar '-' (note ++ '-' :: delta) = [note, delta] :=
        splitOnChar_pair_mpr '-' note delta ha hnosep.2.2
      unfold referencePitchFromStr
      rw [hsplitAt]
      simp only []
      rw [hsplitPlus]
      simp only []
      rw [hsplitMinus]
      simp only [hn, hd, hr]
    · obtain ⟨n, hn, hplusS, hminusS, hr⟩ := hf
      have hatS : '@' ∉ s := parseI32_no_at s n hn
      have hsplitAt : splitOnChar '@' s = [s] := splitOnChar_of_notMem '@' _ hatS
      have hsplitPlus : splitOnChar '+' s = [s] := splitOnChar_of_notMem '+' _ hplusS
      have hsplitMinus : splitOnChar '-' s = [s] := splitOnChar_of_notMem '-' _ hminusS
      unfold referencePitchFromStr
      rw [hsplitAt]
      simp only []
      rw [hsplitPlus]
      simp only []
      rw [hsplitMinus]
      simp only [hn, hr]

/-- C7 counterexample: the error message does not always contain the
offending substring: a pitch expression without the Hz suffix and a bare
reference-pitch expression that is not an integer both produce fixed
hint messages that do not mention the input. -/
theorem parse_error_fixed_message_cex :
    pitchFromStr ("xyz".toList) = .error mustEndHzMsg ∧
    occursIn ("xyz".toList) mustEndHzMsg = false ∧
    referencePitchFromStr ("zz".toList) = .error refPitchHintMsg ∧
    occursIn ("zz".toList) refPitchHintMsg = false := ⟨rfl, rfl, rfl, rfl⟩

/-- C7 (amended): malformed pitch and reference-pitch expressions always
return an error value (the embedded parsers are total functions into
Except); whenever an inner component fails to parse — the frequency of a
pitch expression, the note number or pitch of the @ form, or the note
number or delta of the + and - forms — the error message contains that
offending substring of the input, while inputs rejected at the form level
(no Hz/hz suffix, or a reference-pitch expression matching none of the
four forms) produce a fixed message that does not depend on the input. -/
theorem parse_error_messages :
    (∀ s : List Char, endsWithHz s = false → pitchFromStr s = .error mustEndHzMsg) ∧
    (∀ s e : List Char, endsWithHz s = true →
      parseRatioStr (s.take (s.length - 2)) = .error e →
      pitchFromStr s = .error (invalidFreqMsg (s.take (s.length - 2)) e) ∧
      occursIn (s.take (s.length - 2)) (invalidFreqMsg (s.take (s.length - 2)) e) = true) ∧
    (∀ s note pitch : List Char, splitOnChar '@' s = [note, pitch] → parseI32 note = none →
      referencePitchFromStr s = .error (invalidNoteMsg note) ∧
      occursIn note (invalidNoteMsg note) = true) ∧
    (∀ (s note pitch : List Char) (n : ℤ) (e : List Char),
      splitOnChar '@' s = [note, pitch] → parseI32 note = some n →
      pitchFromStr pitch = .error e →
      referencePitchFromStr s = .error (invalidPitchMsg pitch e) ∧
      occursIn pitch (invalidPitchMsg pitch e) = true) ∧
    (∀ s note delta : List Char, (splitOnChar '@' s).length ≠ 2 →
      splitOnChar '+' s = [note, delta] → parseI32 note = none →
      referencePitchFromStr s = .error (invalidNoteMsg note) ∧
      occursIn note (invalidNoteMsg note) = true) ∧
    (∀ (s note delta : List Char) (n : ℤ) (e : List Char), (splitOnChar '@' s).length ≠ 2 →
      splitOnChar '+' s = [note, delta] → parseI32 note = some n →
      parseRatioStr delta = .error e →
      referencePitchFromStr s = .error (invalidDeltaMsg delta e) ∧
      occursIn delta (invalidDeltaMsg delta e) = true) ∧
    (∀ s note delta : List Char, (splitOnChar '@' s).length ≠ 2 →
      (splitOnChar '+' s).length ≠ 2 →
      splitOnChar '-' s = [note, delta] → parseI32 note = none →
      referencePitchFromStr s = .error (invalidNoteMsg note) ∧
      occursIn note (invalidNoteMsg note) = true) ∧
    (∀ (s note delta : List Char) (n : ℤ) (e : List Char), (splitOnChar '@' s).length ≠ 2 →
      (splitOnChar '+' s).length ≠ 2 →
      splitOnChar '-' s = [note, delta] → parseI32 note = some n →
      parseRatioStr delta = .error e →
      referencePitchFromStr s = .error (invalidDeltaMsg delta e) ∧
      occursIn delta (invalidDeltaMsg delta e) = true) ∧
    (∀ s : List Char, (splitOnChar '@' s).length ≠ 2 → (splitOnChar '+' s).length ≠ 2 →
      (splitOnChar '-' s).length ≠ 2 → parseI32 s = none →
      referencePitchFromStr s = .error refPitchHintMsg) := by
  refine ⟨?_, ?_, ?_, ?_, ?_, ?_, ?_, ?_, ?_⟩
  · intro s h
    simp [pitchFromStr, h]
  · intro s e h1 h2
    constructor
    · simp [pitchFromStr, h1, h2]
    · unfold invalidFreqMsg
      exact occursIn_mid4 _ _ _ _
  · intro s note pitch heq hn
    constructor
    · unfold referencePitchFromStr
      rw [heq]
      simp [hn]
    · unfold invalidNoteMsg
      exact occursIn_mid3 _ _ _
  · intro s note pitch n e heq hn hp
    constructor
    · unfold referencePitchFromStr
      rw [heq]
      simp [hn, hp]
    · unfold invalidPitchMsg
      exact occursIn_mid4 _ _ _ _
  · intro s note delta hlenAt heqP hn
    constructor
    · unfold referencePitchFromStr
      split
      · rename_i a b heqA
        exact absurd (by simp [heqA]) hlenAt
      · rw [heqP]
        simp [hn]
    · unfold invalidNoteMsg
      exact occursIn_mid3 _ _ _
  · intro s note delta n e hlenAt heqP hn he
    constructor
    · unfold referencePitchFromStr
      split
      · rename_i a b heqA
        exact absurd (by simp [heqA]) hlenAt
      · rw [heqP]
        simp [hn, he]
    · unfold invalidDeltaMsg
      exact occursIn_mid4 _ _ _ _
  · intro s note delta hlenAt hlenP heqM hn
    constructor
    · unfold referencePitchFromStr
      split
      · rename_i a b heqA
        exact absurd (by simp [heqA]) hlenAt
      · split
        · rename_i a b heqB
          exact absurd (by simp [heqB]) hlenP
        · rw [heqM]
          simp [hn]
    · unfold invalidNoteMsg
      exact occursIn_mid3 _ _ _
  · intro s note delta n e hlenAt hlenP heqM hn he
    constructor
    · unfold referencePitchFromStr
      split
      · rename_i a b heqA
        exact absurd (by simp [heqA]) hlenAt
      · split
        · rename_i a b heqB
          exact absurd (by simp [heqB]) hlenP
        · rw [heqM]
          simp [hn, he]
    · unfold invalidDeltaMsg
      exact occursIn_mid4 _ _ _ _
  · intro s hlenAt hlenP hlenM hn
    unfold referencePitchFromStr
    split
    · rename_i a b heqA
      exact absurd (by simp [heqA]) hlenAt
    · split
      · rename_i a b heqB
        exact absurd (by simp [heqB]) hlenP
      · split
        · rename_i a b heqC
          exact absurd (by simp [heqC]) hlenM
        · simp [hn]

theorem parse_error_messages_witness :
    pitchFromStr ("x".toList) = .error mustEndHzMsg ∧
    (pitchFromStr ("abcHz".toList) =
        .error (invalidFreqMsg (("abcHz".toList).take (("abcHz".toList).length - 2)) ("abc".toList)) ∧
      occursIn (("abcHz".toList).take (("abcHz".toList).length - 2))
        (invalidFreqMsg (("abcHz".toList).take (("abcHz".toList).length - 2)) ("abc".toList)) = true) ∧
    (referencePitchFromStr ("q@440Hz".toList) = .error (invalidNoteMsg ("q".toList)) ∧
      occursIn ("q".toList) (invalidNoteMsg ("q".toList)) = true) ∧
    (referencePitchFromStr ("5@9".toList) = .error (invalidPitchMsg ("9".toList) mustEndHzMsg) ∧
      occursIn ("9".toList) (invalidPitchMsg ("9".toList) mustEndHzMsg) = true) ∧
    (referencePitchFromStr ("q+100c".toList) = .error (invalidNoteMsg ("q".toList)) ∧
      occursIn ("q".toList) (invalidNoteMsg ("q".toList)) = true) ∧
    (referencePitchFromStr ("5+xyz".toList) =
        .error (invalidDeltaMsg ("xyz".toList) ("xyz".toList)) ∧
      occursIn ("xyz".toList) (invalidDeltaMsg ("xyz".toList) ("xyz".toList)) = true) ∧
    (referencePitchFromStr ("q-100c".toList) = .error (invalidNoteMsg ("q".toList)) ∧
      occursIn ("q".toList) (invalidNoteMsg ("q".toList)) = true) ∧
    (referencePitchFromStr ("5-xyz".toList) =
        .error (invalidDeltaMsg ("xyz".toList) ("xyz".toList)) ∧
      occursIn ("xyz".toList) (invalidDeltaMsg ("xyz".toList) ("xyz".toList)) = true) ∧
    referencePitchFromStr ("zz".toList) = .error refPitchHintMsg :=
  ⟨parse_error_messages.1 ("x".toList) rfl,
   parse_error_messages.2.1 ("abcHz".toList) ("abc".toList) rfl rfl,
   parse_error_messages.2.2.1 ("q@440Hz".toList) ("q".toList) ("440Hz".toList) rfl rfl,
   parse_error_messages.2.2.2.1 ("5@9".toList) ("5".toList) ("9".toList) 5 mustEndHzMsg rfl rfl rfl,
   parse_error_messages.2.2.2.2.1 ("q+100c".toList) ("q".toList) ("100c".toList)
     (by decide) rfl rfl,
   parse_error_messages.2.2.2.2.2.1 ("5+xyz".toList) ("5".toList) ("xyz".toList) 5
     ("xyz".toList) (by decide) rfl rfl rfl,
   parse_error_messages.2.2.2.2.2.2.1 ("q-100c".toList) ("q".toList) ("100c".toList)
     (by decide) (by decide) rfl rfl,
   parse_error_messages.2.2.2.2.2.2.2.1 ("5-xyz".toList) ("5".toList) ("xyz".toList) 5
     ("xyz".toList) (by decide) (by decide) rfl rfl rfl,
   parse_error_messages.2.2.2.2.2.2.2.2 ("zz".toList) (by decide) (by decide) (by decide) rfl⟩


/-- C1: for every Scale+KeyMap tuning and every integer `k`,
`pitch_of(root_key + k*L)` equals `pitch_of(root_key)` times the period
raised to the `k`-th power, where `L` is the scale length including the
period entry; and for every integer key, `pitch_of(key)` equals
`ref_pitch.pitch * period^((key - root_key) div L) * scale[(key - root_key) mod L]`,
so the mapping is total over all integer keys including those below the
root. -/
theorem pitchOf_periodic (s : Scale) (km : KeyMap) (k key : ℤ) (hs : s.ratios ≠ []) :
    pitchOf s km (km.rootKey + k * (s.ratios.length : ℤ)) =
      pitchOf s km km.rootKey * s.period ^ k ∧
    pitchOf s km key =
      km.refPitch.pitch.hz * s.period ^ ((key - km.rootKey) / (s.ratios.length : ℤ)) *
        s.degreeRatio ((key - km.rootKey) % (s.ratios.length : ℤ)).toNat := by
  have hL : (s.ratios.length : ℤ) ≠ 0 := by
    have := List.length_pos.mpr hs
    omega
  refine ⟨?_, rfl⟩
  unfold pitchOf
  have h1 : km.rootKey + k * (s.ratios.length : ℤ) - km.rootKey = k * (s.ratios.length : ℤ) := by
    ring
  have h0 : km.rootKey - km.rootKey = 0 := sub_self _
  rw [h1, h0, Int.mul_ediv_cancel k hL, Int.mul_emod_left, Int.zero_ediv, Int.zero_emod]
  simp only [Int.toNat_zero, Scale.degreeRatio, List.getD_cons_zero, zpow_zero]
  ring

theorem pitchOf_periodic_witness :
    sampleScale.ratios ≠ [] ∧
    (pitchOf sampleScale sampleKeyMap
        (sampleKeyMap.rootKey + (-2) * (sampleScale.ratios.length : ℤ)) =
      pitchOf sampleScale sampleKeyMap sampleKeyMap.rootKey * sampleScale.period ^ (-2 : ℤ) ∧
    pitchOf sampleScale sampleKeyMap 57 =
      sampleKeyMap.refPitch.pitch.hz *
        sampleScale.period ^ ((57 - sampleKeyMap.rootKey) / (sampleScale.ratios.length : ℤ)) *
        sampleScale.degreeRatio (((57 - sampleKeyMap.rootKey) % (sampleScale.ratios.length : ℤ)).toNat)) :=
  ⟨by decide, pitchOf_periodic sampleScale sampleKeyMap (-2) 57 (by decide)⟩

/-- C2: in every generated Single Note Tuning Change bulk-dump message,
XOR-ing all bytes from the device-id field (index 2, right after F0 7F)
through the last data byte yields exactly the checksum byte transmitted
immediately before the final F7 terminator. -/
theorem mts_checksum_valid (dev prog : ℕ) (entries : List (ℕ × ℕ × ℕ)) :
    xorChecksum (((singleNoteTuningDump dev prog entries).drop 2).take
        ((singleNoteTuningDump dev prog entries).length - 4)) =
      (singleNoteTuningDump dev prog entries).getD
        ((singleNoteTuningDump dev prog entries).length - 2) 0 ∧
    (singleNoteTuningDump dev prog entries).getD
        ((singleNoteTuningDump dev prog entries).length - 1) 0 = 247 ∧
    (singleNoteTuningDump dev prog entries).getD 0 0 = 240 := by
  have e : singleNoteTuningDump dev prog entries =
      240 :: 127 :: (payloadBytes dev prog entries ++
        [xorChecksum (payloadBytes dev prog entries), 247]) := rfl
  rw [e]
  have hl : (240 :: 127 :: (payloadBytes dev prog entries ++
      [xorChecksum (payloadBytes dev prog entries), 247])).length
      = (payloadBytes dev prog entries).length + 4 := by simp
  rw [hl]
  refine ⟨?_, ?_, rfl⟩
  · have h4 : (payloadBytes dev prog entries).length + 4 - 4 =
        (payloadBytes dev prog entries).length := by omega
    have h2 : (payloadBytes dev prog entries).length + 4 - 2 =
        ((payloadBytes dev prog entries).length + 1) + 1 := by omega
    rw [h4, h2, List.getD_cons_succ, List.getD_cons_succ, List.drop_succ_cons,
      List.drop_succ_cons, List.drop_zero, List.take_left,
      List.getD_append_right _ _ _ _ (le_refl _), Nat.sub_self, List.getD_cons_zero]
  · have h1 : (payloadBytes dev prog entries).length + 4 - 1 =
        (((payloadBytes dev prog entries).length + 2) + 1) := by omega
    rw [h1, List.getD_cons_succ, List.getD_cons_succ,
      List.getD_append_right _ _ _ _ (by omega)]
    have h2 : (payloadBytes dev prog entries).length + 1 -
        (payloadBytes dev prog entries).length = 1 := by omega
    rw [h2]
    rfl

/-- C6 counterexample: Pitch::from_hz performs no validation, so a Pitch
produced through the public interface need not hold a positive value:
`Pitch::from_hz(-1.0)` stores -1. -/
theorem pitch_fromHz_unvalidated_cex :
    (Pitch.fromHz (-1)).hz = -1 ∧ ¬ (0 < (Pitch.fromHz (-1)).hz) := by decide

/-- C6 (amended): Pitch stores its Hz value unvalidated; a Pitch built from
a positive frequency, and any product or quotient of such a Pitch with a
positive ratio, holds a positive value, and the modelled values are totally
ordered. -/
theorem pitch_positive_closure (q r : ℚ) (hq : 0 < q) (hr : 0 < r) :
    0 < (Pitch.fromHz q).hz ∧ 0 < ((Pitch.fromHz q).mulRatio r).hz ∧
    0 < ((Pitch.fromHz q).divRatio r).hz ∧
    ∀ p : Pitch, (Pitch.fromHz q).hz ≤ p.hz ∨ p.hz ≤ (Pitch.fromHz q).hz :=
  ⟨hq, mul_pos hq hr, div_pos hq hr, fun p => le_total _ _⟩

theorem pitch_positive_closure_witness :
    (0 : ℚ) < 440 ∧ (0 : ℚ) < 3/2 ∧
    (0 < (Pitch.fromHz 440).hz ∧ 0 < ((Pitch.fromHz 440).mulRatio (3/2)).hz ∧
      0 < ((Pitch.fromHz 440).divRatio (3/2)).hz ∧
      ∀ p : Pitch, (Pitch.fromHz 440).hz ≤ p.hz ∨ p.hz ≤ (Pitch.fromHz 440).hz) :=
  ⟨by decide, by decide, pitch_positive_closure 440 (3/2) (by decide) (by decide)⟩

/-- C8: when the executed command fails with an I/O error of kind
BrokenPipe, main returns success; every other outcome of the command is
returned unchanged. -/
theorem main_broken_pipe :
    (∀ e : IoError, e.kind = ErrorKind.brokenPipe → mainOf (.error e) = .ok ()) ∧
    (∀ e : IoError, e.kind ≠ ErrorKind.brokenPipe → mainOf (.error e) = .error e) ∧
    mainOf (.ok ()) = .ok () := by
  refine ⟨fun e he => ?_, fun e he => ?_, rfl⟩
  · simp [mainOf, he]
  · simp [mainOf, he]

theorem main_broken_pipe_witness :
    mainOf (.error ⟨ErrorKind.brokenPipe⟩) = .ok () ∧
    mainOf (.error ⟨ErrorKind.other 3⟩) = .error ⟨ErrorKind.other 3⟩ :=
  ⟨main_broken_pipe.1 ⟨ErrorKind.brokenPipe⟩ rfl,
    main_broken_pipe.2.1 ⟨ErrorKind.other 3⟩ (by decide)⟩

/-- C9: when no root-note override is supplied, the constructed KeyMap's
root_key equals the key of the reference pitch; when an override is
supplied, root_key is the piano key with that MIDI number; in both cases
ref_pitch is stored unchanged. -/
theorem createKeyMap_spec :
    (∀ rp : ReferencePitch, createKeyMap ⟨rp, none⟩ = ⟨rp, rp.key⟩) ∧
    (∀ (rp : ReferencePitch) (n : ℤ),
      createKeyMap ⟨rp, some n⟩ = ⟨rp, pianoKeyFromMidiNumber n⟩) :=
  ⟨fun _ => rfl, fun _ _ => rfl⟩

/-- C10: for the harmonic-series scale command with the number of notes
omitted, the scale is built with note count equal to the lowest harmonic,
and such a scale spans exactly one period: its final ratio entry (the
period) is the octave 2. -/
theorem createScaleHarm_default (h : ℕ) (subharmonics : Bool) (hh : 1 ≤ h) :
    createScaleHarm h none subharmonics = createHarmonicsScale h h subharmonics ∧
    (createScaleHarm h none subharmonics).period = 2 := by
  refine ⟨rfl, ?_⟩
  have hq : (h : ℚ) ≠ 0 := Nat.cast_ne_zero.mpr (by omega)
  unfold createScaleHarm createHarmonicsScale Scale.period
  cases subharmonics with
  | false =>
    simp only [Option.getD_none, if_false, Bool.false_eq_true]
    rw [getLastD_map_range _ h hh]
    have hnum : h + 1 + (h - 1) = 2 * h := by omega
    rw [hnum]
    push_cast
    field_simp
  | true =>
    simp only [Option.getD_none, if_true]
    rw [getLastD_map_range _ h hh]
    have hden : h + h - 1 - (h - 1) = h := by omega
    rw [hden]
    have hnum : ((h + h : ℕ) : ℚ) = 2 * (h : ℚ) := by push_cast; ring
    rw [hnum]
    field_simp

theorem createScaleHarm_default_witness :
    1 ≤ 8 ∧ (createScaleHarm 8 none false = createHarmonicsScale 8 8 false ∧
      (createScaleHarm 8 none false).period = 2) :=
  ⟨by decide, createScaleHarm_default 8 false (by decide)⟩

/-- C3 counterexample: at ratio 29/20 with limit 11 the modelled
nearest_fraction stops at the convergent 3/2, but the fraction 10/7 — whose
numerator and denominator are also within the limit — approximates 29/20
strictly more closely, both by absolute difference and by deviation ratio;
so the optimality part of the claim fails. -/
theorem nearestFraction_not_optimal_cex :
    (nearestFraction (29 / 20) 11).numer = 3 ∧ (nearestFraction (29 / 20) 11).denom = 2 ∧
    (nearestFraction (29 / 20) 11).numOctaves = 0 ∧
    (10 ≤ 11 ∧ 7 ≤ 11) ∧
    |(29 / 20 : ℚ) - 10 / 7| < |(29 / 20 : ℚ) - 3 / 2| ∧
    ratioDist (29 / 20) (10 / 7) < ratioDist (29 / 20) (3 / 2) := by decide

/-- C3 (amended): for every positive input ratio and every limit at least 1,
nearest_fraction returns a numerator and denominator that are each at most
the limit, after factoring out the power of two recorded in num_octaves,
which leaves the remainder in [1, 2).  (The dropped clause — that no other
fraction within the limit approximates the ratio more closely — fails, see
the counterexample: the continued-fraction expansion skips semiconvergents.) -/
theorem nearestFraction_bounds (r : ℚ) (limit : ℕ) (hr : 0 < r) (hl : 1 ≤ limit) :
    (nearestFraction r limit).numer ≤ limit ∧ (nearestFraction r limit).denom ≤ limit ∧
    1 ≤ r / 2 ^ (nearestFraction r limit).numOctaves ∧
    r / 2 ^ (nearestFraction r limit).numOctaves < 2 := by
  obtain ⟨he, h1, h2⟩ := octaveReduce_correct r hr
  have ha0 : (octaveReduce r).2.num.toNat / (octaveReduce r).2.den = 1 :=
    mem_Ico_div_eq_one _ h1 h2
  have e1 : (nearestFraction r limit).numer =
      (convergentLoop ((octaveReduce r).2.den + 1) 1 0
        ((octaveReduce r).2.num.toNat / (octaveReduce r).2.den) 1 (octaveReduce r).2.den
        ((octaveReduce r).2.num.toNat % (octaveReduce r).2.den) limit).1 := rfl
  have e2 : (nearestFraction r limit).denom =
      (convergentLoop ((octaveReduce r).2.den + 1) 1 0
        ((octaveReduce r).2.num.toNat / (octaveReduce r).2.den) 1 (octaveReduce r).2.den
        ((octaveReduce r).2.num.toNat % (octaveReduce r).2.den) limit).2 := rfl
  have e3 : (nearestFraction r limit).numOctaves = (octaveReduce r).1 := rfl
  rw [e1, e2, e3, ha0]
  have hcl := convergentLoop_le ((octaveReduce r).2.den + 1) 1 0 1 1 (octaveReduce r).2.den
    ((octaveReduce r).2.num.toNat % (octaveReduce r).2.den) limit hl hl
  set z := (octaveReduce r).1 with hz
  set mrem := (octaveReduce r).2 with hmrem
  refine ⟨hcl.1, hcl.2, ?_, ?_⟩
  · rw [he, mul_div_cancel_left₀ _ (zpow_ne_zero _ (by norm_num : (2:ℚ) ≠ 0))]
    exact h1
  · rw [he, mul_div_cancel_left₀ _ (zpow_ne_zero _ (by norm_num : (2:ℚ) ≠ 0))]
    exact h2

/-- C4: for every valid Scale+KeyMap tuning and every pitch `p` lying
exactly midway (by deviation ratio, the metric find_by_pitch uses) between
the pitches of two adjacent keys `k` and `k+1` — that is,
`p / pitch_of(k) = pitch_of(k+1) / p`, i.e. `p * p = pitch_of(k) * pitch_of(k+1)` —
find_by_pitch(p) returns the lower key `k`. -/
theorem findByPitch_tie_prefers_lower (s : Scale) (km : KeyMap) (p : ℚ) (k : ℤ)
    (hval : ValidScale s) (href : 0 < km.refPitch.pitch.hz) (hp : 0 < p)
    (hmid : p * p = pitchOf s km k * pitchOf s km (k + 1)) :
    (findByPitch s km p).1 = k := by
  obtain ⟨hne, hc⟩ := hval
  have hL : 0 < s.ratios.length := List.length_pos.mpr hne
  have hLz : (0 : ℤ) < (s.ratios.length : ℤ) := by exact_mod_cast hL
  have hb1 : 1 < s.period := one_lt_period s hne hc
  have hbpos : (0 : ℚ) < s.period := lt_trans one_pos hb1
  have hbne : s.period ≠ 0 := ne_of_gt hbpos
  have hak : 0 < pitchOf s km k := pitchOf_pos s km hne hc href k
  have hak1 : 0 < pitchOf s km (k + 1) := pitchOf_pos s km hne hc href (k + 1)
  have hadj : pitchOf s km k < pitchOf s km (k + 1) := pitchOf_lt_succ s km hne hc href k
  have hpk : pitchOf s km k < p := by
    by_contra hle
    push_neg at hle
    have h1 : p * p ≤ pitchOf s km k * pitchOf s km k :=
      mul_le_mul hle hle (le_of_lt hp) (le_of_lt hak)
    have h2 : pitchOf s km k * pitchOf s km k < pitchOf s km k * pitchOf s km (k + 1) :=
      mul_lt_mul_of_pos_left hadj hak
    linarith [hmid]
  have hpk1 : p < pitchOf s km (k + 1) := by
    by_contra hle
    push_neg at hle
    have h1 : pitchOf s km (k + 1) * pitchOf s km (k + 1) ≤ p * p :=
      mul_le_mul hle hle (le_of_lt hak1) (le_of_lt hp)
    have h2 : pitchOf s km k * pitchOf s km (k + 1) <
        pitchOf s km (k + 1) * pitchOf s km (k + 1) :=
      mul_lt_mul_of_pos_right hadj hak1
    linarith [hmid]
  set x : ℚ := p / km.refPitch.pitch.hz with hxdef
  have hxpos : 0 < x := div_pos hp href
  have hpx : p = km.refPitch.pitch.hz * x := by
    rw [hxdef]
    field_simp
  set oct : ℤ := glog s.period x with hoctdef
  obtain ⟨hgl, hgu⟩ := glog_correct s.period x hb1 hxpos
  set y : ℚ := x / s.period ^ oct with hydef
  have hy1 : 1 ≤ y := by
    rw [hydef, le_div_iff (zpow_pos hbpos _), one_mul]
    exact hgl
  have hyb : y < s.period := by
    rw [hydef, div_lt_iff (zpow_pos hbpos _)]
    calc x < s.period ^ (oct + 1) := hgu
      _ = s.period ^ oct * s.period := by rw [zpow_add_one₀ hbne]
      _ = s.period * s.period ^ oct := mul_comm _ _
  have hbz : s.period ^ oct ≠ 0 := zpow_ne_zero _ hbne
  have hxy : x = s.period ^ oct * y := by
    rw [hydef]
    field_simp
  set d : ℕ := scanDeg y s.ratios.dropLast with hddef
  have hdlen : d ≤ s.ratios.length - 1 := by
    have h := scanDeg_le_length y s.ratios.dropLast
    rw [← hddef, List.length_dropLast] at h
    omega
  have hdL : d < s.ratios.length := by omega
  have hdle : s.degreeRatio d ≤ y := by
    rcases Nat.eq_zero_or_pos d with h0 | hpos
    · rw [h0, degreeRatio_zero]
      exact hy1
    · have hg := scanDeg_get_le y s.ratios.dropLast (by rw [← hddef]; exact hpos)
      rw [← hddef] at hg
      have hidx : d - 1 < s.ratios.dropLast.length := by
        rw [List.length_dropLast]
        omega
      rw [dropLast_getD s.ratios (d - 1) hidx] at hg
      have hdr : s.degreeRatio d = s.ratios.getD (d - 1) 1 := by
        unfold Scale.degreeRatio
        have hd1 : d = (d - 1) + 1 := by omega
        conv_lhs => rw [hd1]
        rw [List.getD_cons_succ]
      rw [hdr]
      exact hg
  set lower : ℤ := km.rootKey + oct * (s.ratios.length : ℤ) + (d : ℤ) with hlowdef
  have hlow_eq : pitchOf s km lower =
      km.refPitch.pitch.hz * s.period ^ oct * s.degreeRatio d := by
    rw [hlowdef]
    exact pitchOf_decomp s km oct d hL hdL
  have hlow_le : pitchOf s km lower ≤ p := by
    rw [hlow_eq, hpx, hxy]
    calc km.refPitch.pitch.hz * s.period ^ oct * s.degreeRatio d
        ≤ km.refPitch.pitch.hz * s.period ^ oct * y :=
          mul_le_mul_of_nonneg_left hdle (le_of_lt (mul_pos href (zpow_pos hbpos _)))
      _ = km.refPitch.pitch.hz * (s.period ^ oct * y) := by ring
  have hup_lt : p < pitchOf s km (lower + 1) := by
    by_cases hcase : d + 1 < s.ratios.length
    · have hlt : scanDeg y s.ratios.dropLast < s.ratios.dropLast.length := by
        rw [← hddef, List.length_dropLast]
        omega
      have hsc := scanDeg_lt y s.ratios.dropLast hlt
      rw [← hddef] at hsc
      have hidx : d < s.ratios.dropLast.length := by
        rw [List.length_dropLast]
        omega
      rw [dropLast_getD s.ratios d hidx] at hsc
      have hdr : s.degreeRatio (d + 1) = s.ratios.getD d 1 := by
        unfold Scale.degreeRatio
        rw [List.getD_cons_succ]
      have harg : lower + 1 = km.rootKey + oct * (s.ratios.length : ℤ) + ((d + 1 : ℕ) : ℤ) := by
        rw [hlowdef]
        push_cast
        ring
      have h2 : pitchOf s km (lower + 1) =
          km.refPitch.pitch.hz * s.period ^ oct * s.degreeRatio (d + 1) := by
        rw [harg]
        exact pitchOf_decomp s km oct (d + 1) hL hcase
      have hassoc : km.refPitch.pitch.hz * s.period ^ oct * s.ratios.getD d 1
          = km.refPitch.pitch.hz * (s.period ^ oct * s.ratios.getD d 1) := by ring
      rw [h2, hdr, hpx, hxy, hassoc]
      exact mul_lt_mul_of_pos_left (mul_lt_mul_of_pos_left hsc (zpow_pos hbpos _)) href
    · have hdeq : d + 1 = s.ratios.length := by omega
      have hdl2 : (d : ℤ) + 1 = (s.ratios.length : ℤ) := by exact_mod_cast hdeq
      have harg : lower + 1 = km.rootKey + (oct + 1) * (s.ratios.length : ℤ) + ((0 : ℕ) : ℤ) := by
        rw [hlowdef]
        push_cast
        linear_combination hdl2
      have h2 : pitchOf s km (lower + 1) =
          km.refPitch.pitch.hz * s.period ^ (oct + 1) * s.degreeRatio 0 := by
        rw [harg]
        exact pitchOf_decomp s km (oct + 1) 0 hL hL
      rw [h2, degreeRatio_zero, mul_one, zpow_add_one₀ hbne, hpx, hxy]
      exact mul_lt_mul_of_pos_left (mul_lt_mul_of_pos_left hyb (zpow_pos hbpos _)) href
  have hlowk : lower = k := by
    rcases lt_trichotomy lower k with hlt | heq | hgt
    · exfalso
      have h1 : lower + 1 ≤ k := by omega
      have h2 := pitchOf_mono s km hne hc href (lower + 1) k h1
      linarith
    · exact heq
    · exfalso
      have h1 : k + 1 ≤ lower := by omega
      have h2 := pitchOf_mono s km hne hc href (k + 1) lower h1
      linarith
  have hF : findByPitch s km p =
      if p * p ≤ pitchOf s km lower * pitchOf s km (lower + 1)
      then (lower, p / pitchOf s km lower) else (lower + 1, p / pitchOf s km (lower + 1)) := rfl
  rw [hF, if_pos (by rw [hlowk]; exact le_of_eq hmid)]
  exact hlowk

theorem findByPitch_tie_witness :
    ValidScale tieScale ∧ 0 < tieKeyMap.refPitch.pitch.hz ∧ (0 : ℚ) < 200 ∧
    (200 : ℚ) * 200 = pitchOf tieScale tieKeyMap 60 * pitchOf tieScale tieKeyMap (60 + 1) ∧
    (findByPitch tieScale tieKeyMap 200).1 = 60 :=
  ⟨⟨by decide, by decide⟩, by decide, by decide, by decide,
    findByPitch_tie_prefers_lower tieScale tieKeyMap 200 60 ⟨by decide, by decide⟩ (by decide)
      (by decide) (by decide)⟩

theorem nearestFraction_bounds_witness :
    (0 : ℚ) < 3 ∧ 1 ≤ 11 ∧
    ((nearestFraction 3 11).numer ≤ 11 ∧ (nearestFraction 3 11).denom ≤ 11 ∧
      1 ≤ (3 : ℚ) / 2 ^ (nearestFraction 3 11).numOctaves ∧
      (3 : ℚ) / 2 ^ (nearestFraction 3 11).numOctaves < 2) :=
  ⟨by decide, by decide, nearestFraction_bounds 3 11 (by decide) (by decide)⟩

end Tune
